import Mathlib

/-!
Verification development for the APGOVSchemeAnalyzer extraction and merge
pipeline.  The definitions below are a shallow embedding of the Python code in
`src/AP/services/gemini_client.py`, `src/AP/services/extraction_service.py` and
`src/AP3.0/services/db_service.py` (whose `create_extraction` is identical to
the copy in `src/AP1.0/services/db_service.py`).

Modelling conventions:
* Python dicts that the code builds key by key are modelled as insertion-ordered
  association lists, with the Python behaviours `d[k] = v` (update in place,
  else append), `k in d`, `d.get(k)` and `d.update(m)` given as explicit
  functions below.
* The scalar JSON values the pipeline stores in action-point fields and
  additional details (null, booleans, numbers, strings) are modelled by `Val`;
  Python truthiness on these values is `Val.truthy`.
* A missing `"action_name"` key reads as `""` via `ap.get("action_name", "")`
  in the source, so a missing name and an empty name are modelled alike as an
  empty string; the four optional fields read as `None` when missing, modelled
  as `Val.null`.
* The chunking while-loop is modelled with an explicit fuel parameter; the
  interpreter answers `none` only when the fuel runs out, so a proof of
  `∀ fuel, … = none` shows the loop never exits.
-/

/-- Scalar JSON value domain used by the pipeline's records. -/
inductive Val : Type where
  | null : Val
  | b : Bool → Val
  | n : Int → Val
  | s : String → Val
deriving DecidableEq, Repr

/-- Python truthiness of a scalar value: `None`, `False`, `0` and `""` are
falsy, everything else is truthy. -/
def Val.truthy : Val → Bool
  | .null => false
  | .b v => v
  | .n v => v ≠ 0
  | .s v => v ≠ ""

/-- An action point record: the five fields of the pydantic `ActionPoint`
schema (`src/AP/models/schemas.py`).  A missing optional field is `Val.null`;
a missing or empty `action_name` is `""`. -/
structure ActionPoint : Type where
  action_name : String
  current_status : Val
  achievement_percentage : Val
  data_source : Val
  remarks : Val
deriving DecidableEq, Repr

/-- One step of the duplicate-field merge in
`GeminiClient._merge_extraction_results` (gemini_client.py lines 318-323):

    if ap.get(key) and not existing.get(key): existing[key] = ap.get(key)
    elif ap.get(key) and existing.get(key):   existing[key] = ap.get(key)
-/
def mergeField (old nw : Val) : Val :=
  if nw.truthy ∧ ¬ old.truthy then nw
  else if nw.truthy ∧ old.truthy then nw
  else old

/-- Merge a later occurrence `ap` into the kept entry `existing`
(gemini_client.py lines 316-323): each of the four optional fields is run
through `mergeField`; the name (and any other key) of the kept entry is
untouched. -/
def ActionPoint.mergeInto (existing ap : ActionPoint) : ActionPoint :=
  { existing with
    current_status := mergeField existing.current_status ap.current_status
    achievement_percentage :=
      mergeField existing.achievement_percentage ap.achievement_percentage
    data_source := mergeField existing.data_source ap.data_source
    remarks := mergeField existing.remarks ap.remarks }

/-- `action_points_dict[action_name] = ap` / in-place merge: the first entry
with the same name is merged via `mergeInto`; a new name is appended at the
end, as Python dict insertion order does. -/
def upsertAP : List ActionPoint → ActionPoint → List ActionPoint
  | [], ap => [ap]
  | x :: xs, ap =>
      if x.action_name = ap.action_name then x.mergeInto ap :: xs
      else x :: upsertAP xs ap

/-- Deduplication of accumulated action points by `action_name`
(gemini_client.py lines 307-326): entries whose name is empty (or missing) are
skipped; otherwise the first occurrence is kept and later occurrences are
merged into it field by field. -/
def dedupActionPoints (aps : List ActionPoint) : List ActionPoint :=
  aps.foldl (fun acc ap => if ap.action_name = "" then acc else upsertAP acc ap) []

/-- `merged_action_points_dict[action_name] = ap` in
`ExtractionService.extract_and_store` (extraction_service.py lines 86-95):
unconditional whole-entry replacement, keyed by name, insertion-ordered. -/
def setAP : List ActionPoint → ActionPoint → List ActionPoint
  | [], ap => [ap]
  | x :: xs, ap =>
      if x.action_name = ap.action_name then ap :: xs
      else x :: setAP xs ap

/-- The knowledge merge of `extract_and_store` (extraction_service.py lines
81-98): existing action points are inserted first, then the new document's
action points, each skipping empty names, with the new data replacing a
same-named prior entry unconditionally. -/
def mergeActionPoints (existing nw : List ActionPoint) : List ActionPoint :=
  let m := existing.foldl
    (fun acc ap => if ap.action_name = "" then acc else setAP acc ap) []
  nw.foldl (fun acc ap => if ap.action_name = "" then acc else setAP acc ap) m

section Chunker

variable {α : Type}

/-- Effective index of a Python slice bound `i` on a sequence of length
`len`: negative indices count from the end and are clamped at `0`, positive
ones are clamped at `len`. -/
def pyIndex (len : Nat) (i : Int) : Nat :=
  if i < 0 then ((len : Int) + i).toNat else min i.toNat len

/-- Python slice `text[a:b]`. -/
def pySlice (text : List α) (a b : Int) : List α :=
  (text.drop (pyIndex text.length a)).take (pyIndex text.length b - pyIndex text.length a)

/-- The while-loop of `GeminiClient._split_text_into_chunks`
(gemini_client.py lines 159-172), with fuel.  `none` means the fuel was
exhausted with the loop still running:

    while start < text_length:
        end = min(start + chunk_size, text_length)
        chunks.append(text[start:end])
        start = end - overlap_size
        if start >= text_length - 1:
            break
-/
def splitLoop (chunkSize overlapSize : Int) (text : List α) :
    Nat → Int → List (List α) → Option (List (List α))
  | 0, _, _ => none
  | fuel + 1, start, chunks =>
      if start < (text.length : Int) then
        let e : Int := min (start + chunkSize) (text.length : Int)
        let chunks' := chunks ++ [pySlice text start e]
        let start' := e - overlapSize
        if start' ≥ (text.length : Int) - 1 then some chunks'
        else splitLoop chunkSize overlapSize text fuel start' chunks'
      else some chunks

/-- `GeminiClient._split_text_into_chunks(text, chunk_size, overlap_size)`
(gemini_client.py lines 143-174), run with the given fuel. -/
def splitTextIntoChunks (chunkSize overlapSize : Int) (text : List α)
    (fuel : Nat) : Option (List (List α)) :=
  splitLoop chunkSize overlapSize text fuel 0 []

/-- Same loop, but reporting the chunks accumulated so far when the fuel runs
out; used to exhibit what the loop has appended after a given number of
iterations. -/
def splitLoopTrace (chunkSize overlapSize : Int) (text : List α) :
    Nat → Int → List (List α) → List (List α)
  | 0, _, chunks => chunks
  | fuel + 1, start, chunks =>
      if start < (text.length : Int) then
        let e : Int := min (start + chunkSize) (text.length : Int)
        let chunks' := chunks ++ [pySlice text start e]
        let start' := e - overlapSize
        if start' ≥ (text.length : Int) - 1 then chunks'
        else splitLoopTrace chunkSize overlapSize text fuel start' chunks'
      else chunks

end Chunker

section ChunkerLemmas

variable {α : Type}

/-- Once the loop has produced a clipped chunk, `start` sits at
`text_length - overlap_size`; for `overlap_size ≥ 2` the next iteration
recomputes exactly the same `start`, so the loop never exits, whatever the
fuel. -/
theorem splitLoop_stuck (chunkSize overlapSize : Int) (text : List α)
    (start : Int) (hov : 2 ≤ overlapSize) (hlt : start < (text.length : Int)) :
    ∀ (fuel : Nat) (chunks : List (List α)),
      splitLoop chunkSize overlapSize text fuel start chunks = none := by
  intro fuel
  induction fuel generalizing start with
  | zero => intro chunks; rfl
  | succ n ih =>
      intro chunks
      have hle : min (start + chunkSize) (text.length : Int) ≤ (text.length : Int) :=
        min_le_right _ _
      have hnb : ¬ (min (start + chunkSize) (text.length : Int) - overlapSize
          ≥ (text.length : Int) - 1) := by omega
      have hlt' : min (start + chunkSize) (text.length : Int) - overlapSize
          < (text.length : Int) := by omega
      simp only [splitLoop, if_pos hlt, if_neg hnb]
      exact ih _ hlt' _

end ChunkerLemmas

/-!
## Generic insertion-ordered keyed folds

All the pipeline's dictionaries are insertion-ordered maps built by repeated
`d[k] = v`-style operations, where inserting at an existing key combines the
old and new values with some merge function (field-aware merge for action
points, plain overwrite for the knowledge merge and for `dict.update`) and a
new key is appended at the end.  `upd1` is that single insertion, `mstep`
additionally skips empty keys exactly as the source's `if action_name:`
guards do, and `mfold`/`graftM` fold them over a list.
-/

section AssocFold

variable {β : Type} (key : β → String) (merge : β → β → β)

/-- `d[key b] = …`: merge into the first entry with the same key, else append. -/
def upd1 : List β → β → List β
  | [], b => [b]
  | x :: xs, b => if key x = key b then merge x b :: xs else x :: upd1 xs b

/-- One accumulation step, skipping entries with an empty key
(the `if action_name:` / `if not sector_name: continue` guards). -/
def mstep (m : List β) (b : β) : List β :=
  if key b = "" then m else upd1 key merge m b

/-- Fold `mstep` over a list of entries. -/
def mfold (m L : List β) : List β :=
  L.foldl (mstep key merge) m

/-- Fold plain insertions (no empty-key guard) over a list of entries. -/
def graftM (m Δ : List β) : List β :=
  Δ.foldl (upd1 key merge) m

theorem graftM_nil (m : List β) : graftM key merge m [] = m := rfl

theorem graftM_cons (m : List β) (b : β) (Δ : List β) :
    graftM key merge m (b :: Δ) = graftM key merge (upd1 key merge m b) Δ := rfl

theorem graftM_single (m : List β) (b : β) :
    graftM key merge m [b] = upd1 key merge m b := rfl

theorem upd1_not_mem {m : List β} {b : β} (h : key b ∉ m.map key) :
    upd1 key merge m b = m ++ [b] := by
  induction m with
  | nil => rfl
  | cons x xs ih =>
      simp only [List.map_cons, List.mem_cons, not_or] at h
      have hx : ¬ key x = key b := fun hh => h.1 hh.symm
      simp only [upd1, if_neg hx, List.cons_append, List.cons.injEq, true_and]
      exact ih h.2

theorem map_key_upd1
    (hkey : ∀ a b, key a = key b → key (merge a b) = key a)
    (m : List β) (b : β) :
    (upd1 key merge m b).map key =
      if key b ∈ m.map key then m.map key else m.map key ++ [key b] := by
  induction m with
  | nil => simp [upd1]
  | cons x xs ih =>
      by_cases hx : key x = key b
      · have : key (merge x b) = key x := hkey x b hx
        simp [upd1, hx, this]
      · simp only [upd1, if_neg hx, List.map_cons, ih]
        have hne : ¬ key b = key x := fun hh => hx hh.symm
        by_cases hmem : key b ∈ xs.map key
        · simp [hmem, hne]
        · simp [hmem, hne]

theorem mem_map_key_upd1
    (hkey : ∀ a b, key a = key b → key (merge a b) = key a)
    (m : List β) (b : β) (k : String) :
    k ∈ (upd1 key merge m b).map key ↔ k ∈ m.map key ∨ k = key b := by
  rw [map_key_upd1 key merge hkey]
  by_cases hmem : key b ∈ m.map key
  · simp only [if_pos hmem]
    constructor
    · exact fun h => Or.inl h
    · rintro (h | h)
      · exact h
      · exact h ▸ hmem
  · simp only [if_neg hmem, List.mem_append, List.mem_singleton]

theorem nodup_map_key_upd1
    (hkey : ∀ a b, key a = key b → key (merge a b) = key a)
    {m : List β} (b : β) (h : (m.map key).Nodup) :
    ((upd1 key merge m b).map key).Nodup := by
  rw [map_key_upd1 key merge hkey]
  by_cases hmem : key b ∈ m.map key
  · simpa [hmem] using h
  · simp only [if_neg hmem]
    rw [List.nodup_append]
    refine ⟨h, List.nodup_singleton _, ?_⟩
    intro k hk
    simp only [List.mem_singleton]
    intro hkb
    exact hmem (hkb ▸ hk)

theorem mem_upd1 {m : List β} {b a : β} (ha : a ∈ upd1 key merge m b) :
    a ∈ m ∨ a = b ∨ ∃ x ∈ m, key x = key b ∧ a = merge x b := by
  induction m with
  | nil =>
      simp only [upd1, List.mem_singleton] at ha
      exact Or.inr (Or.inl ha)
  | cons x xs ih =>
      by_cases hx : key x = key b
      · simp only [upd1, if_pos hx, List.mem_cons] at ha
        rcases ha with rfl | ha
        · exact Or.inr (Or.inr ⟨x, by simp, hx, rfl⟩)
        · exact Or.inl (by simp [ha])
      · simp only [upd1, if_neg hx, List.mem_cons] at ha
        rcases ha with rfl | ha
        · exact Or.inl (by simp)
        · rcases ih ha with h | h | ⟨y, hy, hyb, rfl⟩
          · exact Or.inl (by simp [h])
          · exact Or.inr (Or.inl h)
          · exact Or.inr (Or.inr ⟨y, by simp [hy], hyb, rfl⟩)

theorem W_mem_upd1 {W : β → Prop}
    (hW : ∀ a b, W a → W b → W (merge a b))
    {m : List β} {b : β}
    (hm : ∀ a ∈ m, W a) (hb : W b) : ∀ a ∈ upd1 key merge m b, W a := by
  intro a ha
  rcases mem_upd1 key merge ha with h | rfl | ⟨x, hx, _, rfl⟩
  · exact hm a h
  · exact hb
  · exact hW x b (hm x hx) hb

end AssocFold

section AssocFoldLaws

variable {β : Type} (key : β → String) (merge : β → β → β)

theorem upd1_comm
    (hkey : ∀ a b, key a = key b → key (merge a b) = key a)
    {a b : β} (hab : key a ≠ key b) {m : List β}
    (hbm : key b ∈ m.map key) :
    upd1 key merge (upd1 key merge m a) b = upd1 key merge (upd1 key merge m b) a := by
  induction m with
  | nil => simp at hbm
  | cons x xs ih =>
      by_cases hxa : key x = key a
      · have hxb : ¬ key x = key b := fun h => hab (hxa.symm.trans h)
        have hma : key (merge x a) = key x := hkey x a hxa
        have hmab : ¬ key (merge x a) = key b := fun h => hxb (hma.symm.trans h)
        rw [show upd1 key merge (x :: xs) a = merge x a :: xs from by
            simp [upd1, hxa],
          show upd1 key merge (merge x a :: xs) b = merge x a :: upd1 key merge xs b
            from by simp [upd1, hmab],
          show upd1 key merge (x :: xs) b = x :: upd1 key merge xs b from by
            simp [upd1, hxb],
          show upd1 key merge (x :: upd1 key merge xs b) a
              = merge x a :: upd1 key merge xs b from by simp [upd1, hxa]]
      · by_cases hxb : key x = key b
        · have hmb : key (merge x b) = key x := hkey x b hxb
          have hmba : ¬ key (merge x b) = key a := fun h => hxa (hmb.symm.trans h)
          rw [show upd1 key merge (x :: xs) a = x :: upd1 key merge xs a from by
              simp [upd1, hxa],
            show upd1 key merge (x :: upd1 key merge xs a) b
                = merge x b :: upd1 key merge xs a from by simp [upd1, hxb],
            show upd1 key merge (x :: xs) b = merge x b :: xs from by
              simp [upd1, hxb],
            show upd1 key merge (merge x b :: xs) a = merge x b :: upd1 key merge xs a
              from by simp [upd1, hmba]]
        · have hbm' : key b ∈ xs.map key := by
            simp only [List.map_cons, List.mem_cons] at hbm
            rcases hbm with h | h
            · exact absurd h.symm hxb
            · exact h
          simp only [upd1, if_neg hxa, if_neg hxb]
          rw [ih hbm']

theorem upd1_graftM_mem
    (hkey : ∀ a b, key a = key b → key (merge a b) = key a)
    {b : β} {Δ : List β} (hΔ : key b ∉ Δ.map key) {m : List β}
    (hbm : key b ∈ m.map key) :
    upd1 key merge (graftM key merge m Δ) b
      = graftM key merge (upd1 key merge m b) Δ := by
  induction Δ generalizing m with
  | nil => rfl
  | cons a Δ' ih =>
      simp only [List.map_cons, List.mem_cons, not_or] at hΔ
      have hba : key a ≠ key b := fun hh => hΔ.1 hh.symm
      have hbm' : key b ∈ (upd1 key merge m a).map key :=
        (mem_map_key_upd1 key merge hkey m a (key b)).2 (Or.inl hbm)
      rw [graftM_cons, graftM_cons, ih hΔ.2 hbm',
        upd1_comm key merge hkey hba hbm]

theorem upd1_merge
    (hkey : ∀ a b, key a = key b → key (merge a b) = key a)
    {W : β → Prop}
    (hassoc : ∀ x a b, key x = key a → key a = key b → W a → W b →
      merge (merge x a) b = merge x (merge a b))
    {a b : β} (hab : key a = key b) (hWa : W a) (hWb : W b) (m : List β) :
    upd1 key merge (upd1 key merge m a) b = upd1 key merge m (merge a b) := by
  induction m with
  | nil =>
      have hma : key a = key b := hab
      have : key (merge a b) = key a := hkey a b hab
      simp [upd1, hma, hassoc a a b rfl hab hWa hWb, this]
  | cons x xs ih =>
      by_cases hxa : key x = key a
      · have hma : key (merge x a) = key x := hkey x a hxa
        have hmb : key (merge x a) = key b := hma.trans (hxa.trans hab)
        have hxab : key x = key (merge a b) := by rw [hkey a b hab]; exact hxa
        simp only [upd1, if_pos hxa, if_pos hmb, if_pos hxab]
        rw [hassoc x a b hxa hab hWa hWb]
      · have hxb : ¬ key x = key b := fun h => hxa (h.trans hab.symm)
        have hxab : ¬ key x = key (merge a b) := by
          rw [hkey a b hab]; exact hxa
        simp only [upd1, if_neg hxa, if_neg hxb, if_neg hxab]
        rw [ih]

theorem upd1_graftM
    (hkey : ∀ a b, key a = key b → key (merge a b) = key a)
    {W : β → Prop}
    (hassoc : ∀ x a b, key x = key a → key a = key b → W a → W b →
      merge (merge x a) b = merge x (merge a b))
    {Δ : List β} (hnd : (Δ.map key).Nodup) (hWΔ : ∀ a ∈ Δ, W a)
    {b : β} (hWb : W b) (m : List β) :
    upd1 key merge (graftM key merge m Δ) b
      = graftM key merge m (upd1 key merge Δ b) := by
  induction Δ generalizing m with
  | nil => rfl
  | cons a Δ' ih =>
      by_cases hab : key a = key b
      · have hba : key b ∉ Δ'.map key := by
          simp only [List.map_cons, List.nodup_cons] at hnd
          intro hmem
          exact hnd.1 (hab ▸ hmem)
        have hbm : key b ∈ (upd1 key merge m a).map key :=
          (mem_map_key_upd1 key merge hkey m a (key b)).2 (Or.inr hab.symm)
        simp only [upd1, if_pos hab]
        rw [graftM_cons, graftM_cons,
          upd1_graftM_mem key merge hkey hba hbm,
          upd1_merge key merge hkey hassoc hab (hWΔ a (by simp)) hWb]
      · simp only [upd1, if_neg hab]
        rw [graftM_cons, graftM_cons]
        have hnd' : (Δ'.map key).Nodup := by
          simp only [List.map_cons, List.nodup_cons] at hnd
          exact hnd.2
        exact ih hnd' (fun x hx => hWΔ x (by simp [hx])) _

theorem graftM_assoc
    (hkey : ∀ a b, key a = key b → key (merge a b) = key a)
    {W : β → Prop}
    (hW : ∀ a b, W a → W b → W (merge a b))
    (hassoc : ∀ x a b, key x = key a → key a = key b → W a → W b →
      merge (merge x a) b = merge x (merge a b))
    (m : List β) :
    ∀ (Δ2 Δ : List β), (Δ.map key).Nodup → (∀ a ∈ Δ, W a) →
      (∀ a ∈ Δ2, W a) →
      graftM key merge (graftM key merge m Δ) Δ2
        = graftM key merge m (graftM key merge Δ Δ2) := by
  intro Δ2
  induction Δ2 generalizing m with
  | nil => intro Δ _ _ _; rfl
  | cons b Δ2' ih =>
      intro Δ hnd hWΔ hWΔ2
      rw [graftM_cons, graftM_cons,
        upd1_graftM key merge hkey hassoc hnd hWΔ (hWΔ2 b (by simp)) m]
      exact ih m (upd1 key merge Δ b)
        (nodup_map_key_upd1 key merge hkey b hnd)
        (W_mem_upd1 key merge hW hWΔ (hWΔ2 b (by simp)))
        (fun x hx => hWΔ2 x (by simp [hx]))

end AssocFoldLaws

section AssocFoldPass

variable {β : Type} (key : β → String) (merge : β → β → β)

theorem mfold_nil (m : List β) : mfold key merge m [] = m := rfl

theorem mfold_cons (m : List β) (b : β) (L : List β) :
    mfold key merge m (b :: L) = mfold key merge (mstep key merge m b) L := rfl

theorem W_mem_mfold {W : β → Prop}
    (hW : ∀ a b, W a → W b → W (merge a b))
    {L : List β} (hL : ∀ b ∈ L, W b) :
    ∀ {m : List β}, (∀ a ∈ m, W a) → ∀ a ∈ mfold key merge m L, W a := by
  induction L with
  | nil => intro m hm; exact hm
  | cons b L' ih =>
      intro m hm
      rw [mfold_cons]
      refine ih (fun x hx => hL x (by simp [hx])) ?_
      unfold mstep
      by_cases hb : key b = ""
      · simpa [hb] using hm
      · simpa [hb] using
          W_mem_upd1 key merge hW hm (hL b (by simp))

theorem nodup_map_key_mfold
    (hkey : ∀ a b, key a = key b → key (merge a b) = key a)
    {L : List β} :
    ∀ {m : List β}, (m.map key).Nodup → ((mfold key merge m L).map key).Nodup := by
  induction L with
  | nil => intro m hm; exact hm
  | cons b L' ih =>
      intro m hm
      rw [mfold_cons]
      refine ih ?_
      unfold mstep
      by_cases hb : key b = ""
      · simpa [hb] using hm
      · simpa [hb] using nodup_map_key_upd1 key merge hkey b hm

/-- Folding a list of entries from an arbitrary starting map is the same as
folding it from the empty map and grafting the result on: the second pass of
an identical list therefore acts as a graft of the map onto itself. -/
theorem mfold_eq_graftM
    (hkey : ∀ a b, key a = key b → key (merge a b) = key a)
    {W : β → Prop}
    (hW : ∀ a b, W a → W b → W (merge a b))
    (hassoc : ∀ x a b, key x = key a → key a = key b → W a → W b →
      merge (merge x a) b = merge x (merge a b))
    {L : List β} (hL : ∀ b ∈ L, W b) (m : List β) :
    mfold key merge m L = graftM key merge m (mfold key merge [] L) := by
  induction L generalizing m with
  | nil => rfl
  | cons b L' ih =>
      have hL' : ∀ x ∈ L', W x := fun x hx => hL x (by simp [hx])
      by_cases hb : key b = ""
      · rw [mfold_cons, mfold_cons]
        simp only [mstep, if_pos hb]
        exact ih hL' m
      · rw [mfold_cons, mfold_cons]
        simp only [mstep, if_neg hb]
        have h1 : mfold key merge (upd1 key merge [] b) L'
            = graftM key merge [b] (mfold key merge [] L') := by
          simpa [upd1] using ih hL' [b]
        rw [ih hL' (upd1 key merge m b), h1,
          ← graftM_single key merge m b,
          graftM_assoc key merge hkey hW hassoc m (mfold key merge [] L') [b]
            (by simp) (by simpa using hL b (by simp))
            (W_mem_mfold key merge hW hL' (by simp))]

/-- Inserting an entry whose key differs from the head's key walks past the
head. -/
theorem graftM_cons_skip {x : β} {m Δ : List β}
    (h : ∀ b ∈ Δ, key b ≠ key x) :
    graftM key merge (x :: m) Δ = x :: graftM key merge m Δ := by
  induction Δ generalizing m with
  | nil => rfl
  | cons b Δ' ih =>
      have hbx : ¬ key x = key b := fun hh => (h b (by simp)) hh.symm
      rw [graftM_cons, graftM_cons]
      simp only [upd1, if_neg hbx]
      exact ih (fun c hc => h c (by simp [hc]))

/-- Grafting a nodup-keyed map onto itself merges every entry with itself, in
place. -/
theorem graftM_self
    (hkey : ∀ a b, key a = key b → key (merge a b) = key a)
    {F : List β} (hnd : (F.map key).Nodup) :
    graftM key merge F F = F.map (fun e => merge e e) := by
  induction F with
  | nil => rfl
  | cons e F' ih =>
      simp only [List.map_cons, List.nodup_cons] at hnd
      rw [graftM_cons]
      have h1 : upd1 key merge (e :: F') e = merge e e :: F' := by
        simp [upd1]
      rw [h1]
      have h2 : ∀ b ∈ F', key b ≠ key (merge e e) := by
        intro b hb
        rw [hkey e e rfl]
        intro hh
        exact hnd.1 (hh ▸ (List.mem_map_of_mem key hb))
      rw [graftM_cons_skip key merge h2, ih hnd.2]
      rfl

end AssocFoldPass

section AssocFoldFind

variable {β : Type} (key : β → String) (merge : β → β → β)

/-- First entry with the given key, as a Python dict read `d[k]` finds it. -/
def findK : List β → String → Option β
  | [], _ => none
  | x :: xs, k => if key x = k then some x else findK xs k

theorem findK_upd1_hit
    (hkey : ∀ a b, key a = key b → key (merge a b) = key a)
    {m : List β} {b e : β} (h : findK key m (key b) = some e) :
    findK key (upd1 key merge m b) (key b) = some (merge e b) := by
  induction m with
  | nil => simp [findK] at h
  | cons x xs ih =>
      by_cases hx : key x = key b
      · have hxe : x = e := by
          simpa [findK, hx] using h
        subst hxe
        have hm : key (merge x b) = key x := hkey x b hx
        simp [upd1, findK, hx, hm]
      · have h' : findK key xs (key b) = some e := by
          simpa [findK, hx] using h
        simp only [upd1, if_neg hx, findK, if_neg hx]
        exact ih h'

theorem findK_upd1_miss {m : List β} {b : β}
    (h : findK key m (key b) = none) :
    findK key (upd1 key merge m b) (key b) = some b := by
  induction m with
  | nil => simp [upd1, findK]
  | cons x xs ih =>
      by_cases hx : key x = key b
      · simp [findK, hx] at h
      · have h' : findK key xs (key b) = none := by
          simpa [findK, hx] using h
        simp only [upd1, if_neg hx, findK, if_neg hx]
        exact ih h'

theorem findK_upd1_other
    (hkey : ∀ a b, key a = key b → key (merge a b) = key a)
    {m : List β} {b : β} {k : String} (h : k ≠ key b) :
    findK key (upd1 key merge m b) k = findK key m k := by
  have hbk : ¬ key b = k := fun hh => h hh.symm
  induction m with
  | nil => simp [upd1, findK, hbk]
  | cons x xs ih =>
      by_cases hx : key x = key b
      · have hxk : ¬ key x = k := fun hh => hbk (hx ▸ hh)
        have hm : key (merge x b) = key x := hkey x b hx
        have hmk : ¬ key (merge x b) = k := fun hh => hxk (hm ▸ hh)
        rw [show upd1 key merge (x :: xs) b = merge x b :: xs from by
            simp [upd1, hx],
          show findK key (merge x b :: xs) k = findK key xs k from by
            simp [findK, hmk],
          show findK key (x :: xs) k = findK key xs k from by
            simp [findK, hxk]]
      · rw [show upd1 key merge (x :: xs) b = x :: upd1 key merge xs b from by
            simp [upd1, hx]]
        by_cases hxk : key x = k
        · simp [findK, hxk]
        · simp only [findK, if_neg hxk]
          exact ih

/-- What a fold of keyed insertions holds at key `k`: the entries of `L` with
key `k`, merged in order into the map's prior entry at `k` (or into the first
such entry when the map had none). -/
theorem findK_mfold
    (hkey : ∀ a b, key a = key b → key (merge a b) = key a)
    {k : String} (hk : k ≠ "") {L : List β} :
    ∀ m : List β, findK key (mfold key merge m L) k =
      match findK key m k, L.filter (fun b => key b = k) with
      | some e, occs => some (occs.foldl merge e)
      | none, [] => none
      | none, a :: as => some (as.foldl merge a) := by
  induction L with
  | nil =>
      intro m
      cases h : findK key m k <;> simp [mfold, h]
  | cons b L' ih =>
      intro m
      rw [mfold_cons]
      by_cases hb : key b = ""
      · have hbk : ¬ key b = k := fun hh => hk (hh ▸ hb)
        simp only [mstep, if_pos hb]
        rw [ih m]
        simp [List.filter_cons, hbk]
      · by_cases hbk : key b = k
        · subst hbk
          simp only [mstep, if_neg hb]
          rw [ih (upd1 key merge m b)]
          cases h : findK key m (key b) with
          | some e =>
              rw [findK_upd1_hit key merge hkey h]
              simp [List.filter_cons]
          | none =>
              rw [findK_upd1_miss key merge h]
              simp [List.filter_cons]
        · simp only [mstep, if_neg hb]
          rw [ih (upd1 key merge m b),
            findK_upd1_other key merge hkey (fun hh => hbk hh.symm)]
          simp [List.filter_cons, hbk]

theorem mem_map_key_mfold
    (hkey : ∀ a b, key a = key b → key (merge a b) = key a)
    {k : String} {L : List β} :
    ∀ m : List β, k ∈ (mfold key merge m L).map key ↔
      k ∈ m.map key ∨ (¬ k = "" ∧ ∃ b ∈ L, key b = k) := by
  induction L with
  | nil => intro m; simp [mfold]
  | cons b L' ih =>
      intro m
      rw [mfold_cons]
      by_cases hb : key b = ""
      · simp only [mstep, if_pos hb]
        rw [ih m]
        constructor
        · rintro (h | ⟨hk, x, hx, hkx⟩)
          · exact Or.inl h
          · exact Or.inr ⟨hk, x, by simp [hx], hkx⟩
        · rintro (h | ⟨hk, x, hx, hkx⟩)
          · exact Or.inl h
          · rcases List.mem_cons.1 hx with rfl | hx'
            · exact absurd (hkx ▸ hb) hk
            · exact Or.inr ⟨hk, x, hx', hkx⟩
      · simp only [mstep, if_neg hb]
        rw [ih (upd1 key merge m b),
          mem_map_key_upd1 key merge hkey m b k]
        constructor
        · rintro ((h | rfl) | ⟨hk, x, hx, hkx⟩)
          · exact Or.inl h
          · exact Or.inr ⟨hb, b, by simp, rfl⟩
          · exact Or.inr ⟨hk, x, by simp [hx], hkx⟩
        · rintro (h | ⟨hk, x, hx, hkx⟩)
          · exact Or.inl (Or.inl h)
          · rcases List.mem_cons.1 hx with rfl | hx'
            · exact Or.inl (Or.inr hkx.symm)
            · exact Or.inr ⟨hk, x, hx', hkx⟩

theorem key_ne_empty_mfold
    (hkey : ∀ a b, key a = key b → key (merge a b) = key a)
    {L : List β} :
    ∀ m : List β, (∀ a ∈ m, key a ≠ "") →
      ∀ a ∈ mfold key merge m L, key a ≠ "" := by
  induction L with
  | nil => intro m hm; exact hm
  | cons b L' ih =>
      intro m hm
      rw [mfold_cons]
      refine ih _ ?_
      unfold mstep
      by_cases hb : key b = ""
      · simpa [hb] using hm
      · simp only [if_neg hb]
        intro a ha
        rcases mem_upd1 key merge ha with h | rfl | ⟨x, hx, hxb, rfl⟩
        · exact hm a h
        · exact hb
        · rw [hkey x b hxb]
          exact hm x hx

theorem mfold_filter_ne_empty {L : List β} :
    ∀ m : List β,
      mfold key merge m (L.filter (fun b => key b ≠ "")) = mfold key merge m L := by
  induction L with
  | nil => intro m; rfl
  | cons b L' ih =>
      intro m
      by_cases hb : key b = ""
      · rw [List.filter_cons_of_neg (by simpa using hb), mfold_cons]
        simp only [mstep, if_pos hb]
        exact ih m
      · rw [List.filter_cons_of_pos (by simpa using hb), mfold_cons, mfold_cons]
        exact ih _

end AssocFoldFind

section AssocFoldGraftExtra

variable {β : Type} (key : β → String) (merge : β → β → β)

theorem nodup_map_key_graftM
    (hkey : ∀ a b, key a = key b → key (merge a b) = key a)
    {Δ : List β} :
    ∀ {m : List β}, (m.map key).Nodup → ((graftM key merge m Δ).map key).Nodup := by
  induction Δ with
  | nil => intro m hm; exact hm
  | cons b Δ' ih =>
      intro m hm
      rw [graftM_cons]
      exact ih (nodup_map_key_upd1 key merge hkey b hm)

theorem W_mem_graftM {W : β → Prop}
    (hW : ∀ a b, W a → W b → W (merge a b))
    {Δ : List β} (hΔ : ∀ b ∈ Δ, W b) :
    ∀ {m : List β}, (∀ a ∈ m, W a) → ∀ a ∈ graftM key merge m Δ, W a := by
  induction Δ with
  | nil => intro m hm; exact hm
  | cons b Δ' ih =>
      intro m hm
      rw [graftM_cons]
      exact ih (fun x hx => hΔ x (by simp [hx]))
        (W_mem_upd1 key merge hW hm (hΔ b (by simp)))

end AssocFoldGraftExtra

/-!
## Cross-Chunk Merger data model

Input shape of one chunk's parsed extraction (`result["sectors"]` entries) and
the accumulation state of `_merge_extraction_results` (gemini_client.py lines
229-346).  A sub-category may carry its action points either inside an
`information` object (new format, together with `additional_details`) or
directly under `action_points` (old format); a missing-or-falsy `information`
is `none`.
-/

/-- The `information` object of a sub-category: action points plus free-form
additional details. -/
structure Information : Type where
  action_points : List ActionPoint
  additional_details : List (String × Val)
deriving DecidableEq

/-- One sub-category entry of a chunk result. -/
structure SubCatIn : Type where
  sub_category_name : String
  information : Option Information
  action_points : List ActionPoint
deriving DecidableEq

/-- One sector entry of a chunk result. -/
structure SectorIn : Type where
  sector_name : String
  sub_categories : List SubCatIn
deriving DecidableEq

/-- Accumulated per-sub-category state:
`{"action_points": [...], "additional_details": {...}}`. -/
abbrev AccSub : Type := List ActionPoint × List (String × Val)

/-- Python `k in d` on an insertion-ordered dict. -/
def containsKey {γ : Type} : List (String × γ) → String → Bool
  | [], _ => false
  | (k1, _) :: xs, k => k1 = k || containsKey xs k

/-- Python in-place mutation of the entry at an existing key (first
occurrence); identity when the key is absent. -/
def modifyEntry {γ : Type} : List (String × γ) → String → (γ → γ) → List (String × γ)
  | [], _, _ => []
  | (k1, v) :: xs, k, f => if k1 = k then (k1, f v) :: xs else (k1, v) :: modifyEntry xs k f

/-- Python `d[k]` read. -/
def lookupEntry {γ : Type} : List (String × γ) → String → Option γ
  | [], _ => none
  | (k1, v) :: xs, k => if k1 = k then some v else lookupEntry xs k

/-- Python `d[k] = v` on a `String → Val` dict (`dict.update` does this key by
key): overwrite the first entry with that key in place, else append. -/
def updKey : List (String × Val) → String × Val → List (String × Val)
  | [], kv => [kv]
  | (k1, v1) :: xs, kv =>
      if k1 = kv.1 then (k1, kv.2) :: xs else (k1, v1) :: updKey xs kv

/-- Python `d.update(kvs)` in iteration order. -/
def updList (m kvs : List (String × Val)) : List (String × Val) :=
  kvs.foldl updKey m

/-- Accumulate one sub-category entry into the per-sector state
(gemini_client.py lines 261-290): skip empty names, initialise the entry,
then extend `action_points` and update `additional_details` from the
`information` object (new format) or from the top-level `action_points` (old
format), each guarded by non-emptiness as in the source. -/
def accumSubCat (subs : List (String × AccSub)) (sc : SubCatIn) :
    List (String × AccSub) :=
  if sc.sub_category_name = "" then subs
  else
    let subs1 := if containsKey subs sc.sub_category_name then subs
      else subs ++ [(sc.sub_category_name, ([], []))]
    match sc.information with
    | none =>
        if sc.action_points ≠ [] then
          modifyEntry subs1 sc.sub_category_name
            (fun p => (p.1 ++ sc.action_points, p.2))
        else subs1
    | some info =>
        let subs2 := if info.action_points ≠ [] then
            modifyEntry subs1 sc.sub_category_name
              (fun p => (p.1 ++ info.action_points, p.2))
          else subs1
        if info.additional_details ≠ [] then
          modifyEntry subs2 sc.sub_category_name
            (fun p => (p.1, updList p.2 info.additional_details))
        else subs2

/-- Accumulate one sector entry (gemini_client.py lines 250-260): skip empty
sector names, initialise the sector, then fold its sub-categories. -/
def accumSector (ms : List (String × List (String × AccSub))) (sec : SectorIn) :
    List (String × List (String × AccSub)) :=
  if sec.sector_name = "" then ms
  else
    let ms1 := if containsKey ms sec.sector_name then ms
      else ms ++ [(sec.sector_name, [])]
    modifyEntry ms1 sec.sector_name
      (fun subs => sec.sub_categories.foldl accumSubCat subs)

/-- Accumulate one chunk result (gemini_client.py lines 245-249): a falsy
result or one without a `"sectors"` key (`none`) contributes nothing. -/
def accumResult (ms : List (String × List (String × AccSub)))
    (r : Option (List SectorIn)) : List (String × List (String × AccSub)) :=
  match r with
  | none => ms
  | some sectors => sectors.foldl accumSector ms

/-- Output sub-category of the merger. -/
structure SubCatOut : Type where
  sub_category_name : String
  information : Information
deriving DecidableEq

/-- Output sector of the merger. -/
structure SectorOut : Type where
  sector_name : String
  sub_categories : List SubCatOut
deriving DecidableEq

/-- The merger's return value (gemini_client.py lines 342-346). -/
structure MergedData : Type where
  district : String
  upload_date : String
  sectors : List SectorOut
deriving DecidableEq

/-- Phase 2 of the merger for one sub-category (gemini_client.py lines
296-334): deduplicate the accumulated action points and emit the entry.  (The
`isinstance(subcat_data, list)` fallback of the source is unreachable: phase 1
only ever stores `{"action_points": ..., "additional_details": ...}` dicts.) -/
def finalizeSubCat (q : String × AccSub) : SubCatOut :=
  { sub_category_name := q.1
    information :=
      { action_points := dedupActionPoints q.2.1
        additional_details := q.2.2 } }

/-- Phase 2 for one sector (gemini_client.py lines 294-339). -/
def finalizeSector (p : String × List (String × AccSub)) : SectorOut :=
  { sector_name := p.1, sub_categories := p.2.map finalizeSubCat }

/-- `GeminiClient._merge_extraction_results(all_results, district_name,
upload_date)` (gemini_client.py lines 229-346). -/
def mergeExtractionResults (all_results : List (Option (List SectorIn)))
    (district upload_date : String) : MergedData :=
  let ms := all_results.foldl accumResult []
  { district := district
    upload_date := upload_date
    sectors := ms.map finalizeSector }

/-!
## Batch failure policy, versioned store, and persisted payload
-/

/-- The per-document batch logic of `extract_structured_data` over the chunk
outcomes (gemini_client.py lines 109-141).  An outcome is `none` when the
chunk raised or returned a falsy result (both are appended to
`failed_chunks`); otherwise `some d` where `d` is the parsed result's
`"sectors"` list (`none` when the key is absent).  The guard compares with
Python's exact division `len(failed_chunks) > len(chunks) / 2`. -/
def extractBatch (outcomes : List (Option (Option (List SectorIn))))
    (district upload_date : String) : Option MergedData :=
  let all_extracted_data := outcomes.filterMap id
  let failedCount := (outcomes.filter (fun o => o.isNone)).length
  if (failedCount : ℚ) > (outcomes.length : ℚ) / 2 then none
  else if all_extracted_data = [] then none
  else some (mergeExtractionResults all_extracted_data district upload_date)

/-- One row of the `extractions` table
(db_service.py, identical in AP3.0 and AP1.0). -/
structure ExtRow : Type where
  document_id : Nat
  district_id : Nat
  sector_name : String
  sub_category : String
  data_json : String
  version_date : String
  is_latest : Bool
deriving DecidableEq

/-- `mark_extractions_outdated` (db_service.py lines 100-112):
`UPDATE extractions SET is_latest = 0 WHERE district_id = ? AND
sector_name = ? AND sub_category = ?`. -/
def markExtractionsOutdated (rows : List ExtRow) (district_id : Nat)
    (sector_name sub_category : String) : List ExtRow :=
  rows.map (fun r =>
    if r.district_id = district_id ∧ r.sector_name = sector_name ∧
        r.sub_category = sub_category
    then { r with is_latest := false } else r)

/-- Arguments of one `create_extraction` call. -/
structure ExtArgs : Type where
  document_id : Nat
  district_id : Nat
  sector_name : String
  sub_category : String
  data_json : String
  version_date : String
deriving DecidableEq

/-- `create_extraction` (db_service.py lines 114-131): mark previous rows for
the (district, sector, sub-category) key as outdated, then insert the new row
with `is_latest = 1`. -/
def createExtraction (rows : List ExtRow) (a : ExtArgs) : List ExtRow :=
  markExtractionsOutdated rows a.district_id a.sector_name a.sub_category ++
    [{ document_id := a.document_id, district_id := a.district_id,
       sector_name := a.sector_name, sub_category := a.sub_category,
       data_json := a.data_json, version_date := a.version_date,
       is_latest := true }]

/-- The extractions table after a sequence of `create_extraction` calls
starting from the freshly initialised (empty) table. -/
def runExtractions (ops : List ExtArgs) : List ExtRow :=
  ops.foldl createExtraction []

/-- JSON trees, for the persisted payload. -/
inductive Json : Type where
  | null : Json
  | jb : Bool → Json
  | jn : Int → Json
  | js : String → Json
  | jarr : List Json → Json
  | jobj : List (String × Json) → Json

def valToJson : Val → Json
  | .null => .null
  | .b x => .jb x
  | .n x => .jn x
  | .s x => .js x

def jsonToVal : Json → Val
  | .null => .null
  | .jb x => .b x
  | .jn x => .n x
  | .js x => .s x
  | .jarr _ => .null
  | .jobj _ => .null

/-- The dict built for each merged action point in `extract_and_store`
(extraction_service.py lines 70-77): exactly the five schema fields. -/
def apToJson (ap : ActionPoint) : Json :=
  .jobj [("action_name", .js ap.action_name),
         ("current_status", valToJson ap.current_status),
         ("achievement_percentage", valToJson ap.achievement_percentage),
         ("data_source", valToJson ap.data_source),
         ("remarks", valToJson ap.remarks)]

/-- The record body written to the store:
`json.dumps({"action_points": merged_action_points})`
(extraction_service.py lines 100-103). -/
def storedBodyJson (merged_action_points : List ActionPoint) : Json :=
  .jobj [("action_points", .jarr (merged_action_points.map apToJson))]

/-- A SubCategoryRecord as the spec's data model defines it: action points
plus an additional-details mapping. -/
structure SubCategoryRecord : Type where
  action_points : List ActionPoint
  additional_details : List (String × Val)
deriving DecidableEq

def jsonObjKeys : Json → List String
  | .jobj kvs => kvs.map Prod.fst
  | _ => []

def jsonGet : Json → String → Option Json
  | .jobj kvs, k => lookupEntry kvs k
  | _, _ => none

/-- Read one action point back from its persisted JSON object, fields
defaulting as the repo's readers do (`ap.get("action_name", "")`, optional
fields to null). -/
def jsonToAp (j : Json) : ActionPoint :=
  { action_name := match jsonGet j "action_name" with
      | some (.js s) => s
      | _ => ""
    current_status := ((jsonGet j "current_status").map jsonToVal).getD .null
    achievement_percentage :=
      ((jsonGet j "achievement_percentage").map jsonToVal).getD .null
    data_source := ((jsonGet j "data_source").map jsonToVal).getD .null
    remarks := ((jsonGet j "remarks").map jsonToVal).getD .null }

/-- Parse a persisted record body back into a SubCategoryRecord, reading the
`"action_points"` array and the `"additional_details"` object with the same
defaults the repo's readers use (`json.loads(...).get("action_points", [])`). -/
def parseStoredBody (j : Json) : SubCategoryRecord :=
  { action_points := match jsonGet j "action_points" with
      | some (.jarr xs) => xs.map jsonToAp
      | _ => []
    additional_details := match jsonGet j "additional_details" with
      | some (.jobj kvs) => kvs.map (fun kv => (kv.1, jsonToVal kv.2))
      | _ => [] }

/-!
## Bridges between the concrete source-shaped functions and the generic folds
-/

/-- `mergeField` collapses to: a truthy later value wins, otherwise the kept
value stays — including when the later value is falsy but non-null. -/
theorem mergeField_eq (old nw : Val) :
    mergeField old nw = if nw.truthy then nw else old := by
  unfold mergeField
  by_cases h1 : nw.truthy = true <;> by_cases h2 : old.truthy = true <;>
    simp [h1, h2]

theorem mergeField_self (v : Val) : mergeField v v = v := by
  rw [mergeField_eq]
  by_cases h : v.truthy = true <;> simp [h]

theorem mergeField_assoc (v a b : Val) :
    mergeField (mergeField v a) b = mergeField v (mergeField a b) := by
  simp only [mergeField_eq]
  by_cases hb : b.truthy = true <;> by_cases ha : a.truthy = true <;>
    simp [ha, hb]

theorem mergeInto_name (e ap : ActionPoint) :
    (e.mergeInto ap).action_name = e.action_name := rfl

theorem mergeInto_self (e : ActionPoint) : e.mergeInto e = e := by
  unfold ActionPoint.mergeInto
  simp [mergeField_self]

theorem mergeInto_assoc (x a b : ActionPoint) :
    (x.mergeInto a).mergeInto b = x.mergeInto (a.mergeInto b) := by
  unfold ActionPoint.mergeInto
  simp [mergeField_assoc]

theorem upsertAP_eq (m : List ActionPoint) (ap : ActionPoint) :
    upsertAP m ap = upd1 ActionPoint.action_name ActionPoint.mergeInto m ap := by
  induction m with
  | nil => rfl
  | cons x xs ih =>
      by_cases h : x.action_name = ap.action_name
      · simp [upsertAP, upd1, ActionPoint.action_name, h]
      · simp only [upsertAP, upd1, if_neg h, ih]

theorem dedupActionPoints_eq (aps : List ActionPoint) :
    dedupActionPoints aps
      = mfold ActionPoint.action_name ActionPoint.mergeInto [] aps := by
  unfold dedupActionPoints mfold
  have hf : (fun acc ap => if ap.action_name = "" then acc else upsertAP acc ap)
      = mstep ActionPoint.action_name ActionPoint.mergeInto := by
    funext acc ap
    by_cases h : ap.action_name = ""
    · simp [mstep, ActionPoint.action_name, h]
    · simp [mstep, ActionPoint.action_name, h, upsertAP_eq]
  rw [hf]

/-- The overwrite merge of the knowledge-merge dict. -/
def owAP : ActionPoint → ActionPoint → ActionPoint := fun _ ap => ap

theorem setAP_eq (m : List ActionPoint) (ap : ActionPoint) :
    setAP m ap = upd1 ActionPoint.action_name owAP m ap := by
  induction m with
  | nil => rfl
  | cons x xs ih =>
      by_cases h : x.action_name = ap.action_name
      · simp [setAP, upd1, ActionPoint.action_name, owAP, h]
      · simp only [setAP, upd1, if_neg h, ih]

theorem mergeActionPoints_eq (existing nw : List ActionPoint) :
    mergeActionPoints existing nw
      = mfold ActionPoint.action_name owAP
          (mfold ActionPoint.action_name owAP [] existing) nw := by
  unfold mergeActionPoints mfold
  have hf : (fun acc ap => if ap.action_name = "" then acc else setAP acc ap)
      = mstep ActionPoint.action_name owAP := by
    funext acc ap
    by_cases h : ap.action_name = ""
    · simp [mstep, ActionPoint.action_name, h]
    · simp [mstep, ActionPoint.action_name, h, setAP_eq]
  rw [hf]

/-- The overwrite merge of `dict.update` on `String → Val` dicts. -/
def owPair : (String × Val) → (String × Val) → (String × Val) :=
  fun p q => (p.1, q.2)

theorem updKey_eq (m : List (String × Val)) (kv : String × Val) :
    updKey m kv = upd1 Prod.fst owPair m kv := by
  induction m with
  | nil => rfl
  | cons x xs ih =>
      by_cases h : x.1 = kv.1
      · simp [updKey, upd1, owPair, h]
      · simp only [updKey, upd1, if_neg h, ih]

theorem updList_eq (m kvs : List (String × Val)) :
    updList m kvs = graftM Prod.fst owPair m kvs := by
  unfold updList graftM
  have hf : updKey = upd1 Prod.fst owPair := by
    funext m kv
    exact updKey_eq m kv
  rw [hf]

theorem owPair_fst (a b : String × Val) (h : a.1 = b.1) : (owPair a b).1 = a.1 := rfl

theorem updList_updList_nil (x L : List (String × Val)) :
    updList x (updList [] L) = updList x L := by
  rw [updList_eq, updList_eq, updList_eq]
  have h := graftM_assoc Prod.fst owPair (W := fun _ => True)
    (fun a b h1 => owPair_fst a b h1)
    (fun _ _ _ _ => trivial)
    (fun x a b _ _ _ _ => rfl)
    x L [] (by simp) (by simp) (by simp)
  simpa [graftM_nil] using h.symm

theorem nodup_updList {x : List (String × Val)} (L : List (String × Val))
    (h : (x.map Prod.fst).Nodup) : ((updList x L).map Prod.fst).Nodup := by
  rw [updList_eq]
  exact nodup_map_key_graftM Prod.fst owPair
    (fun a b h1 => owPair_fst a b h1) h

theorem updList_self {d : List (String × Val)}
    (h : (d.map Prod.fst).Nodup) : updList d d = d := by
  rw [updList_eq, graftM_self Prod.fst owPair (fun a b h1 => owPair_fst a b h1) h]
  have he : (fun e : String × Val => owPair e e) = id := by
    funext e
    rfl
  rw [he, List.map_id]

theorem modifyEntry_id {γ : Type} (m : List (String × γ)) (k : String) :
    modifyEntry m k (fun v => v) = m := by
  induction m with
  | nil => rfl
  | cons x xs ih =>
      rcases x with ⟨k1, v⟩
      by_cases h : k1 = k
      · simp [modifyEntry, h]
      · simp [modifyEntry, h, ih]

theorem modifyEntry_comp {γ : Type} (m : List (String × γ)) (k : String)
    (f g : γ → γ) :
    modifyEntry (modifyEntry m k f) k g = modifyEntry m k (fun v => g (f v)) := by
  induction m with
  | nil => rfl
  | cons x xs ih =>
      rcases x with ⟨k1, v⟩
      by_cases h : k1 = k
      · simp [modifyEntry, h]
      · simp [modifyEntry, h, ih]

theorem modifyEntry_append_fresh {γ : Type} {m : List (String × γ)} {k : String}
    (h : containsKey m k = false) (v : γ) (f : γ → γ) :
    modifyEntry (m ++ [(k, v)]) k f = m ++ [(k, f v)] := by
  induction m with
  | nil => simp [modifyEntry]
  | cons x xs ih =>
      rcases x with ⟨k1, v1⟩
      simp only [containsKey, Bool.or_eq_false_iff, decide_eq_false_iff_not] at h
      simp [modifyEntry, h.1, ih h.2]

/-- A keyed insertion on a `(String × γ)` map, for a merge that keeps the
first component, is Python's `d[k] = …` pattern: mutate in place if the key
is present, else append. -/
theorem upd1_pair_eq {γ : Type} (mv : (String × γ) → (String × γ) → (String × γ))
    (f : γ → γ → γ) (hmv : ∀ p q, mv p q = (p.1, f p.2 q.2))
    (m : List (String × γ)) (k : String) (d : γ) :
    upd1 Prod.fst mv m (k, d) =
      if containsKey m k then modifyEntry m k (fun v => f v d)
      else m ++ [(k, d)] := by
  induction m with
  | nil => simp [upd1, containsKey]
  | cons x xs ih =>
      rcases x with ⟨k1, v⟩
      by_cases h : k1 = k
      · simp [upd1, containsKey, modifyEntry, h, hmv]
      · simp only [upd1, if_neg h, containsKey, modifyEntry, ih]
        by_cases hc : containsKey xs k = true
        · simp [h, hc]
        · simp only [Bool.not_eq_true] at hc
          simp [h, hc]

/-- Merging two accumulated sub-category states: extend the action points,
update the detail dict. -/
def mergeAcc (x y : AccSub) : AccSub := (x.1 ++ y.1, updList x.2 y.2)

/-- Keyed version of `mergeAcc` on `(name, state)` pairs. -/
def mergeLeafPair (p q : String × AccSub) : String × AccSub :=
  (p.1, mergeAcc p.2 q.2)

/-- Merging two per-sector sub-category maps: graft the second onto the
first, entry by entry. -/
def mergeSecPair (p q : String × List (String × AccSub)) :
    String × List (String × AccSub) :=
  (p.1, graftM Prod.fst mergeLeafPair p.2 q.2)

/-- Wellformedness of an accumulated sub-category entry: its detail dict has
no duplicate keys (true of every dict the accumulation builds). -/
def Wleaf (p : String × AccSub) : Prop := (p.2.2.map Prod.fst).Nodup

/-- Wellformedness of an accumulated sector entry: its sub-category map has
no duplicate keys and wellformed entries. -/
def Wsec (p : String × List (String × AccSub)) : Prop :=
  (p.2.map Prod.fst).Nodup ∧ ∀ q ∈ p.2, Wleaf q

theorem mergeLeafPair_fst (a b : String × AccSub) (_h : a.1 = b.1) :
    (mergeLeafPair a b).1 = a.1 := rfl

theorem mergeLeafPair_W (a b : String × AccSub) (ha : Wleaf a) (_hb : Wleaf b) :
    Wleaf (mergeLeafPair a b) := by
  unfold Wleaf mergeLeafPair mergeAcc at *
  exact nodup_updList _ ha

theorem mergeLeafPair_assoc (x a b : String × AccSub)
    (_h1 : x.1 = a.1) (_h2 : a.1 = b.1) (ha : Wleaf a) (_hb : Wleaf b) :
    mergeLeafPair (mergeLeafPair x a) b = mergeLeafPair x (mergeLeafPair a b) := by
  unfold Wleaf at ha
  unfold mergeLeafPair mergeAcc
  simp only [List.append_assoc, Prod.mk.injEq, true_and]
  rw [updList_eq, updList_eq, updList_eq, updList_eq]
  exact graftM_assoc Prod.fst owPair (W := fun _ => True)
    (fun a b h1 => owPair_fst a b h1)
    (fun _ _ _ _ => trivial)
    (fun x a b _ _ _ _ => rfl)
    x.2.2 b.2.2 a.2.2 ha (by simp) (by simp)

theorem mergeSecPair_fst (a b : String × List (String × AccSub))
    (_h : a.1 = b.1) : (mergeSecPair a b).1 = a.1 := rfl

theorem mergeSecPair_W (a b : String × List (String × AccSub))
    (ha : Wsec a) (hb : Wsec b) : Wsec (mergeSecPair a b) := by
  obtain ⟨ha1, ha2⟩ := ha
  obtain ⟨hb1, hb2⟩ := hb
  constructor
  · exact nodup_map_key_graftM Prod.fst mergeLeafPair mergeLeafPair_fst ha1
  · exact W_mem_graftM Prod.fst mergeLeafPair mergeLeafPair_W hb2 ha2

theorem mergeSecPair_assoc (x a b : String × List (String × AccSub))
    (_h1 : x.1 = a.1) (_h2 : a.1 = b.1) (ha : Wsec a) (hb : Wsec b) :
    mergeSecPair (mergeSecPair x a) b = mergeSecPair x (mergeSecPair a b) := by
  obtain ⟨ha1, ha2⟩ := ha
  obtain ⟨hb1, hb2⟩ := hb
  unfold mergeSecPair
  simp only [Prod.mk.injEq, true_and]
  exact graftM_assoc Prod.fst mergeLeafPair
    mergeLeafPair_fst mergeLeafPair_W mergeLeafPair_assoc
    x.2 b.2 a.2 ha1 ha2 hb2

/-- The per-sub-category contribution of one chunk entry, as a keyed delta. -/
def scDelta (sc : SubCatIn) : String × AccSub :=
  (sc.sub_category_name,
    match sc.information with
    | none => (sc.action_points, [])
    | some info => (info.action_points, updList [] info.additional_details))

/-- The per-sector contribution of one chunk entry, as a keyed delta. -/
def secDelta (sec : SectorIn) : String × List (String × AccSub) :=
  (sec.sector_name,
    mfold Prod.fst mergeLeafPair [] (sec.sub_categories.map scDelta))

theorem scDelta_W (sc : SubCatIn) : Wleaf (scDelta sc) := by
  unfold Wleaf scDelta
  cases sc.information with
  | none => simp
  | some info =>
      simp only
      exact nodup_updList _ (by simp)

theorem secDelta_W (sec : SectorIn) : Wsec (secDelta sec) := by
  constructor
  · exact nodup_map_key_mfold Prod.fst mergeLeafPair mergeLeafPair_fst (by simp)
  · exact W_mem_mfold Prod.fst mergeLeafPair mergeLeafPair_W
      (fun d hd => by
        obtain ⟨sc, _, rfl⟩ := List.mem_map.1 hd
        exact scDelta_W sc)
      (by simp)

theorem modify_aps_guard (subs : List (String × AccSub)) (name : String)
    (aps : List ActionPoint) :
    (if aps ≠ [] then
        modifyEntry subs name (fun p => (p.1 ++ aps, p.2))
      else subs)
      = modifyEntry subs name (fun p => (p.1 ++ aps, p.2)) := by
  by_cases h : aps = []
  · subst h
    have he : (fun p : AccSub => (p.1 ++ [], p.2)) = fun v => v := by
      funext p
      simp
    simp [he, modifyEntry_id]
  · simp [h]

theorem modify_det_guard (subs : List (String × AccSub)) (name : String)
    (det : List (String × Val)) :
    (if det ≠ [] then
        modifyEntry subs name (fun p => (p.1, updList p.2 det))
      else subs)
      = modifyEntry subs name (fun p => (p.1, updList p.2 det)) := by
  by_cases h : det = []
  · subst h
    have he : (fun p : AccSub => (p.1, updList p.2 [])) = fun v => v := by
      funext p
      rfl
    simp [he, modifyEntry_id]
  · simp [h]

/-- The accumulation of one sub-category entry is exactly one keyed insertion
of its delta. -/
theorem accumSubCat_eq (subs : List (String × AccSub)) (sc : SubCatIn) :
    accumSubCat subs sc = mstep Prod.fst mergeLeafPair subs (scDelta sc) := by
  by_cases hname : sc.sub_category_name = ""
  · simp [accumSubCat, mstep, scDelta, hname]
  · cases hinfo : sc.information with
    | none =>
        have hdelta : scDelta sc = (sc.sub_category_name, (sc.action_points, [])) := by
          unfold scDelta
          rw [hinfo]
        rw [hdelta]
        simp only [mstep]
        rw [if_neg hname, upd1_pair_eq mergeLeafPair mergeAcc (fun p q => rfl)]
        by_cases hc : containsKey subs sc.sub_category_name = true
        · have hL : accumSubCat subs sc =
              (if sc.action_points ≠ [] then
                modifyEntry subs sc.sub_category_name
                  (fun p => (p.1 ++ sc.action_points, p.2))
              else subs) := by
            simp only [accumSubCat, if_neg hname, hinfo, hc, ite_true]
          rw [hL, modify_aps_guard, if_pos hc]
          rfl
        · simp only [Bool.not_eq_true] at hc
          have hL : accumSubCat subs sc =
              (if sc.action_points ≠ [] then
                modifyEntry (subs ++ [(sc.sub_category_name, ([], []))])
                  sc.sub_category_name (fun p => (p.1 ++ sc.action_points, p.2))
              else subs ++ [(sc.sub_category_name, ([], []))]) := by
            simp only [accumSubCat, if_neg hname, hinfo, hc, Bool.false_eq_true,
              ite_false]
          rw [hL, modify_aps_guard, modifyEntry_append_fresh hc,
            if_neg (by simp [hc])]
          rfl
    | some info =>
        have hdelta : scDelta sc = (sc.sub_category_name,
            (info.action_points, updList [] info.additional_details)) := by
          unfold scDelta
          rw [hinfo]
        rw [hdelta]
        simp only [mstep]
        rw [if_neg hname, upd1_pair_eq mergeLeafPair mergeAcc (fun p q => rfl)]
        by_cases hc : containsKey subs sc.sub_category_name = true
        · have hL : accumSubCat subs sc =
              (if info.additional_details ≠ [] then
                modifyEntry
                  (if info.action_points ≠ [] then
                    modifyEntry subs sc.sub_category_name
                      (fun p => (p.1 ++ info.action_points, p.2))
                  else subs)
                  sc.sub_category_name
                  (fun p => (p.1, updList p.2 info.additional_details))
              else
                (if info.action_points ≠ [] then
                  modifyEntry subs sc.sub_category_name
                    (fun p => (p.1 ++ info.action_points, p.2))
                else subs)) := by
            simp only [accumSubCat, if_neg hname, hinfo, hc, ite_true]
          rw [hL, modify_aps_guard, modify_det_guard, modifyEntry_comp,
            if_pos hc]
          have he : (fun v : AccSub =>
              ((fun p : AccSub => (p.1, updList p.2 info.additional_details))
                ((fun p : AccSub => (p.1 ++ info.action_points, p.2)) v)))
              = fun v : AccSub =>
                  mergeAcc v (info.action_points, updList [] info.additional_details) := by
            funext p
            unfold mergeAcc
            simp only [updList_updList_nil]
          rw [he]
        · simp only [Bool.not_eq_true] at hc
          have hL : accumSubCat subs sc =
              (if info.additional_details ≠ [] then
                modifyEntry
                  (if info.action_points ≠ [] then
                    modifyEntry (subs ++ [(sc.sub_category_name, ([], []))])
                      sc.sub_category_name
                      (fun p => (p.1 ++ info.action_points, p.2))
                  else subs ++ [(sc.sub_category_name, ([], []))])
                  sc.sub_category_name
                  (fun p => (p.1, updList p.2 info.additional_details))
              else
                (if info.action_points ≠ [] then
                  modifyEntry (subs ++ [(sc.sub_category_name, ([], []))])
                    sc.sub_category_name
                    (fun p => (p.1 ++ info.action_points, p.2))
                else subs ++ [(sc.sub_category_name, ([], []))])) := by
            simp only [accumSubCat, if_neg hname, hinfo, hc, Bool.false_eq_true,
              ite_false]
          rw [hL, modify_aps_guard, modify_det_guard, modifyEntry_comp,
            modifyEntry_append_fresh hc, if_neg (by simp [hc])]
          rfl

theorem foldl_accumSubCat_eq (scs : List SubCatIn) :
    ∀ subs, scs.foldl accumSubCat subs
      = mfold Prod.fst mergeLeafPair subs (scs.map scDelta) := by
  induction scs with
  | nil => intro subs; rfl
  | cons sc scs' ih =>
      intro subs
      rw [List.foldl_cons, List.map_cons, mfold_cons, ih, accumSubCat_eq]

/-- `mfold_eq_graftM` at the sub-category-map level. -/
theorem mfold_leaf_eq_graft {deltas : List (String × AccSub)}
    (hW : ∀ d ∈ deltas, Wleaf d) (subs : List (String × AccSub)) :
    mfold Prod.fst mergeLeafPair subs deltas
      = graftM Prod.fst mergeLeafPair subs
          (mfold Prod.fst mergeLeafPair [] deltas) :=
  mfold_eq_graftM Prod.fst mergeLeafPair mergeLeafPair_fst mergeLeafPair_W
    mergeLeafPair_assoc hW subs

/-- The accumulation of one sector entry is exactly one keyed insertion of its
delta. -/
theorem accumSector_eq (ms : List (String × List (String × AccSub)))
    (sec : SectorIn) :
    accumSector ms sec = mstep Prod.fst mergeSecPair ms (secDelta sec) := by
  by_cases hname : sec.sector_name = ""
  · simp [accumSector, mstep, secDelta, hname]
  · have hWd : ∀ d ∈ sec.sub_categories.map scDelta, Wleaf d := by
      intro d hd
      obtain ⟨sc, _, rfl⟩ := List.mem_map.1 hd
      exact scDelta_W sc
    have hsec : secDelta sec = (sec.sector_name,
        mfold Prod.fst mergeLeafPair [] (sec.sub_categories.map scDelta)) := rfl
    rw [hsec]
    simp only [mstep]
    rw [if_neg hname,
      upd1_pair_eq mergeSecPair (fun subs S => graftM Prod.fst mergeLeafPair subs S)
        (fun p q => rfl)]
    by_cases hc : containsKey ms sec.sector_name = true
    · have hL : accumSector ms sec =
          modifyEntry ms sec.sector_name
            (fun subs => sec.sub_categories.foldl accumSubCat subs) := by
        simp only [accumSector, if_neg hname, hc, ite_true]
      rw [hL, if_pos hc]
      have he : (fun subs => sec.sub_categories.foldl accumSubCat subs)
          = fun subs => graftM Prod.fst mergeLeafPair subs
              (mfold Prod.fst mergeLeafPair [] (sec.sub_categories.map scDelta)) := by
        funext subs
        rw [foldl_accumSubCat_eq, mfold_leaf_eq_graft hWd]
      rw [he]
    · simp only [Bool.not_eq_true] at hc
      have hL : accumSector ms sec =
          modifyEntry (ms ++ [(sec.sector_name, [])]) sec.sector_name
            (fun subs => sec.sub_categories.foldl accumSubCat subs) := by
        simp only [accumSector, if_neg hname, hc, Bool.false_eq_true, ite_false]
      rw [hL, modifyEntry_append_fresh hc, if_neg (by simp [hc]),
        foldl_accumSubCat_eq]

theorem foldl_accumSector_eq (secs : List SectorIn) :
    ∀ ms, secs.foldl accumSector ms
      = mfold Prod.fst mergeSecPair ms (secs.map secDelta) := by
  induction secs with
  | nil => intro ms; rfl
  | cons sec secs' ih =>
      intro ms
      rw [List.foldl_cons, List.map_cons, mfold_cons, ih, accumSector_eq]

theorem mergeInto_keyfact (a b : ActionPoint)
    (_h : a.action_name = b.action_name) :
    (a.mergeInto b).action_name = a.action_name := rfl

/-- Deduplicating a list followed by itself gives the same result as
deduplicating the list once. -/
theorem dedup_append_self (aps : List ActionPoint) :
    dedupActionPoints (aps ++ aps) = dedupActionPoints aps := by
  rw [dedupActionPoints_eq, dedupActionPoints_eq]
  unfold mfold
  rw [List.foldl_append]
  change mfold ActionPoint.action_name ActionPoint.mergeInto
      (mfold ActionPoint.action_name ActionPoint.mergeInto [] aps) aps
    = mfold ActionPoint.action_name ActionPoint.mergeInto [] aps
  rw [mfold_eq_graftM ActionPoint.action_name ActionPoint.mergeInto
      (W := fun _ => True) mergeInto_keyfact (fun _ _ _ _ => trivial)
      (fun x a b _ _ _ _ => mergeInto_assoc x a b) (fun _ _ => trivial),
    graftM_self ActionPoint.action_name ActionPoint.mergeInto mergeInto_keyfact
      (nodup_map_key_mfold ActionPoint.action_name ActionPoint.mergeInto
        mergeInto_keyfact (by simp))]
  have he : (fun e : ActionPoint => e.mergeInto e) = id := by
    funext e
    exact mergeInto_self e
  rw [he, List.map_id]

theorem dedup_names_nodup (aps : List ActionPoint) :
    ((dedupActionPoints aps).map ActionPoint.action_name).Nodup := by
  rw [dedupActionPoints_eq]
  exact nodup_map_key_mfold ActionPoint.action_name ActionPoint.mergeInto
    mergeInto_keyfact (by simp)

theorem mergeOut_names_nodup (rs : List (Option (List SectorIn)))
    (d u : String) :
    ∀ so ∈ (mergeExtractionResults rs d u).sectors,
      ∀ co ∈ so.sub_categories,
        (co.information.action_points.map ActionPoint.action_name).Nodup := by
  intro so hso co hco
  unfold mergeExtractionResults at hso
  simp only [List.mem_map] at hso
  obtain ⟨p, _hp, rfl⟩ := hso
  unfold finalizeSector at hco
  simp only [List.mem_map] at hco
  obtain ⟨q, _hq, rfl⟩ := hco
  exact dedup_names_nodup q.2.1

theorem finalizeSubCat_self_merge {q : String × AccSub} (hq : Wleaf q) :
    finalizeSubCat (mergeLeafPair q q) = finalizeSubCat q := by
  obtain ⟨c, a, dd⟩ := q
  unfold Wleaf at hq
  unfold mergeLeafPair mergeAcc finalizeSubCat
  simp only [SubCatOut.mk.injEq, Information.mk.injEq, true_and]
  constructor
  · exact dedup_append_self a
  · exact updList_self hq

theorem finalizeSector_self_merge {p : String × List (String × AccSub)}
    (hp : Wsec p) :
    finalizeSector (mergeSecPair p p) = finalizeSector p := by
  obtain ⟨k, subs⟩ := p
  obtain ⟨hnd, hW⟩ := hp
  unfold mergeSecPair finalizeSector
  simp only [SectorOut.mk.injEq, true_and]
  rw [graftM_self Prod.fst mergeLeafPair mergeLeafPair_fst hnd, List.map_map]
  refine List.map_congr_left ?_
  intro q hq
  exact finalizeSubCat_self_merge (hW q hq)

/-- Merging a chunk-result list with itself doubled gives the same merged
record: the accumulated state of the second pass is the self-graft of the
first pass's state, and finalisation collapses the doubling. -/
theorem mergeExtractionResults_doubling (r : Option (List SectorIn))
    (d u : String) :
    mergeExtractionResults [r, r] d u = mergeExtractionResults [r] d u := by
  cases r with
  | none => rfl
  | some secs =>
      unfold mergeExtractionResults
      simp only [List.foldl_cons, List.foldl_nil, MergedData.mk.injEq,
        true_and]
      show ((secs.foldl accumSector (secs.foldl accumSector [])).map
          finalizeSector)
        = (secs.foldl accumSector []).map finalizeSector
      rw [foldl_accumSector_eq, foldl_accumSector_eq]
      have hWDr : ∀ e ∈ secs.map secDelta, Wsec e := by
        intro e he
        obtain ⟨sec, _, rfl⟩ := List.mem_map.1 he
        exact secDelta_W sec
      rw [mfold_eq_graftM Prod.fst mergeSecPair mergeSecPair_fst mergeSecPair_W
        mergeSecPair_assoc hWDr]
      rw [graftM_self Prod.fst mergeSecPair mergeSecPair_fst
        (nodup_map_key_mfold Prod.fst mergeSecPair mergeSecPair_fst (by simp))]
      rw [List.map_map]
      refine List.map_congr_left ?_
      intro p hp
      exact finalizeSector_self_merge
        (W_mem_mfold Prod.fst mergeSecPair mergeSecPair_W hWDr (by simp) p hp)

section ChunkerStep

variable {α : Type}

/-- One non-exiting iteration of the chunk-splitting loop's trace. -/
theorem splitLoopTrace_step (chunkSize overlapSize e : Int) (text : List α)
    (fuel : Nat) (start : Int) (chunks : List (List α))
    (h1 : start < (text.length : Int))
    (he : min (start + chunkSize) (text.length : Int) = e)
    (h2 : ¬ (e - overlapSize ≥ (text.length : Int) - 1)) :
    splitLoopTrace chunkSize overlapSize text (fuel + 1) start chunks
      = splitLoopTrace chunkSize overlapSize text fuel (e - overlapSize)
          (chunks ++ [pySlice text start e]) := by
  simp only [splitLoopTrace, if_pos h1, he]
  rw [if_neg h2]

theorem splitLoopTrace_zero (chunkSize overlapSize : Int) (text : List α)
    (start : Int) (chunks : List (List α)) :
    splitLoopTrace chunkSize overlapSize text 0 start chunks = chunks := rfl

end ChunkerStep

/-- C1: the spec requires the Chunker's split to terminate for every
configuration with `chunk_size > overlap_size ≥ 0`, but the code's loop guard
`start >= text_length - 1` can only fire when `overlap_size ≤ 1`: for every
`overlap_size ≥ 2` within the spec's configuration range and every nonempty
text, the fuel-indexed interpreter of the loop returns `none` at every fuel,
i.e. the loop never exits and no finite chunk list is ever returned. -/
theorem C1_split_nontermination (text : List Nat) (chunkSize overlapSize : Int)
    (hov : 2 ≤ overlapSize) (_hcfg : overlapSize < chunkSize)
    (htext : text ≠ []) :
    ∀ fuel, splitTextIntoChunks chunkSize overlapSize text fuel = none := by
  intro fuel
  have hlen : (0 : Int) < (text.length : Int) := by
    have h := List.length_pos.2 htext
    exact_mod_cast h
  exact splitLoop_stuck chunkSize overlapSize text 0 hov hlen fuel []

/-- Witness for C1 at the production configuration (chunk 8000, overlap 500)
on a ten-character text. -/
theorem C1_split_nontermination_witness :
    (2 : Int) ≤ 500 ∧ (500 : Int) < 8000 ∧ List.range 10 ≠ [] ∧
      splitTextIntoChunks 8000 500 (List.range 10) 1000 = none :=
  ⟨by norm_num, by norm_num, by decide,
    C1_split_nontermination (List.range 10) 8000 500 (by norm_num) (by norm_num)
      (by decide) 1000⟩

/-- C4: for a 20000-character text with chunk size 8000 and overlap 500 the
spec expects exactly the three chunks at offsets `[0,8000)`, `[7500,15500)`
and `[15000,20000)`.  The loop does append exactly those three chunks in its
first three iterations (second conjunct), but it then sticks at
`start = 19500` re-appending `text[19500:20000]` forever, so the call never
returns a chunk list at all (first conjunct: `none` at every fuel). -/
theorem C4_chunk_scenario (text : List Nat) (hlen : text.length = 20000) :
    (∀ fuel, splitTextIntoChunks 8000 500 text fuel = none) ∧
      splitLoopTrace 8000 500 text 3 0 []
        = [pySlice text 0 8000, pySlice text 7500 15500,
            pySlice text 15000 20000] := by
  have hc : (text.length : Int) = 20000 := by exact_mod_cast hlen
  constructor
  · intro fuel
    have h0 : (0 : Int) < (text.length : Int) := by rw [hc]; norm_num
    exact splitLoop_stuck 8000 500 text 0 (by norm_num) h0 fuel []
  · rw [show (3 : Nat) = 2 + 1 from rfl,
      splitLoopTrace_step 8000 500 8000 text 2 0 []
        (by rw [hc]; norm_num) (by rw [hc]; norm_num [min_def])
        (by rw [hc]; norm_num),
      show (8000 : Int) - 500 = 7500 from by norm_num,
      show (2 : Nat) = 1 + 1 from rfl,
      splitLoopTrace_step 8000 500 15500 text 1 7500 _
        (by rw [hc]; norm_num) (by rw [hc]; norm_num [min_def])
        (by rw [hc]; norm_num),
      show (15500 : Int) - 500 = 15000 from by norm_num,
      show (1 : Nat) = 0 + 1 from rfl,
      splitLoopTrace_step 8000 500 20000 text 0 15000 _
        (by rw [hc]; norm_num) (by rw [hc]; norm_num [min_def])
        (by rw [hc]; norm_num),
      splitLoopTrace_zero]
    simp

/-- Witness for C4 on the concrete text `List.range 20000`. -/
theorem C4_chunk_scenario_witness :
    (List.range 20000).length = 20000 ∧
      ((∀ fuel, splitTextIntoChunks 8000 500 (List.range 20000) fuel = none) ∧
        splitLoopTrace 8000 500 (List.range 20000) 3 0 []
          = [pySlice (List.range 20000) 0 8000,
              pySlice (List.range 20000) 7500 15500,
              pySlice (List.range 20000) 15000 20000]) :=
  ⟨List.length_range 20000,
    C4_chunk_scenario (List.range 20000) (List.length_range 20000)⟩

/-- C9: merging the two-element list `[r, r]` with the Cross-Chunk Merger
yields exactly the same merged record as merging `[r]`, and in the merged
output no action name appears twice within a sub-category, so no duplicate is
introduced and no field of `r` is lost relative to merging it once. -/
theorem C9_merge_self_idempotent (r : Option (List SectorIn)) (d u : String) :
    mergeExtractionResults [r, r] d u = mergeExtractionResults [r] d u ∧
      ∀ so ∈ (mergeExtractionResults [r, r] d u).sectors,
        ∀ co ∈ so.sub_categories,
          (co.information.action_points.map ActionPoint.action_name).Nodup :=
  ⟨mergeExtractionResults_doubling r d u, mergeOut_names_nodup [r, r] d u⟩

section AssocFoldMem

variable {β : Type} (key : β → String) (merge : β → β → β)

theorem findK_mem {m : List β} {k : String} {e : β}
    (h : findK key m k = some e) : e ∈ m ∧ key e = k := by
  induction m with
  | nil => simp [findK] at h
  | cons x xs ih =>
      by_cases hx : key x = k
      · have hxe : x = e := by simpa [findK, hx] using h
        subst hxe
        exact ⟨by simp, hx⟩
      · have h' : findK key xs k = some e := by simpa [findK, hx] using h
        exact ⟨by simp [(ih h').1], (ih h').2⟩

theorem mem_map_key_graftM_left
    (hkey : ∀ a b, key a = key b → key (merge a b) = key a)
    {k : String} {Δ : List β} :
    ∀ {m : List β}, k ∈ m.map key → k ∈ (graftM key merge m Δ).map key := by
  induction Δ with
  | nil => intro m hm; exact hm
  | cons b Δ' ih =>
      intro m hm
      rw [graftM_cons]
      exact ih ((mem_map_key_upd1 key merge hkey m b k).2 (Or.inl hm))

theorem mem_map_key_graftM_right
    (hkey : ∀ a b, key a = key b → key (merge a b) = key a)
    {k : String} {Δ : List β} (hΔ : k ∈ Δ.map key) :
    ∀ m : List β, k ∈ (graftM key merge m Δ).map key := by
  induction Δ with
  | nil => simp at hΔ
  | cons b Δ' ih =>
      intro m
      rw [graftM_cons]
      simp only [List.map_cons, List.mem_cons] at hΔ
      rcases hΔ with hk | hk
      · exact mem_map_key_graftM_left key merge hkey
          ((mem_map_key_upd1 key merge hkey m b k).2 (Or.inr hk))
      · exact ih hk _

end AssocFoldMem

theorem mfold_append {β : Type} (key : β → String) (merge : β → β → β)
    (m L1 L2 : List β) :
    mfold key merge m (L1 ++ L2) = mfold key merge (mfold key merge m L1) L2 := by
  unfold mfold
  rw [List.foldl_append]

/-- The keyed deltas contributed by one chunk result. -/
def resultDeltas (r : Option (List SectorIn)) :
    List (String × List (String × AccSub)) :=
  match r with
  | none => []
  | some secs => secs.map secDelta

theorem accumResult_eq (ms : List (String × List (String × AccSub)))
    (r : Option (List SectorIn)) :
    accumResult ms r = mfold Prod.fst mergeSecPair ms (resultDeltas r) := by
  cases r with
  | none => rfl
  | some secs => exact foldl_accumSector_eq secs ms

theorem foldl_accumResult_eq (rs : List (Option (List SectorIn))) :
    ∀ ms, rs.foldl accumResult ms
      = mfold Prod.fst mergeSecPair ms (rs.map resultDeltas).flatten := by
  induction rs with
  | nil => intro ms; rfl
  | cons r rs' ih =>
      intro ms
      rw [List.foldl_cons, ih, List.map_cons, List.flatten_cons, mfold_append,
        accumResult_eq]

theorem foldl_mergeSecPair_keys_left {c : String} (as : List (String × List (String × AccSub))) :
    ∀ a, c ∈ a.2.map Prod.fst → c ∈ ((as.foldl mergeSecPair a).2.map Prod.fst) := by
  induction as with
  | nil => intro a h; exact h
  | cons x as' ih =>
      intro a h
      rw [List.foldl_cons]
      exact ih _ (mem_map_key_graftM_left Prod.fst mergeLeafPair
        mergeLeafPair_fst h)

theorem foldl_mergeSecPair_keys_right {c : String}
    {as : List (String × List (String × AccSub))}
    {x : String × List (String × AccSub)} (hx : x ∈ as)
    (hc : c ∈ x.2.map Prod.fst) :
    ∀ a, c ∈ ((as.foldl mergeSecPair a).2.map Prod.fst) := by
  induction as with
  | nil => simp at hx
  | cons y as' ih =>
      intro a
      rw [List.foldl_cons]
      rcases List.mem_cons.1 hx with rfl | hx'
      · exact foldl_mergeSecPair_keys_left as' _
          (mem_map_key_graftM_right Prod.fst mergeLeafPair mergeLeafPair_fst hc _)
      · exact ih hx' _

/-- C8 (amended): the merger does not omit empty sub-categories.  Every
sub-category encountered in any chunk result under nonempty sector and
sub-category names appears in the merged output — also when it accumulated
zero action points across all chunks (it is then emitted with an empty
`action_points` array). -/
theorem C8_empty_subcategory_emitted (rs : List (Option (List SectorIn)))
    (d u : String) (r : List SectorIn) (hr : some r ∈ rs)
    (sec : SectorIn) (hsec : sec ∈ r) (hsname : sec.sector_name ≠ "")
    (sc : SubCatIn) (hsc : sc ∈ sec.sub_categories)
    (hcname : sc.sub_category_name ≠ "") :
    ∃ so ∈ (mergeExtractionResults rs d u).sectors,
      so.sector_name = sec.sector_name ∧
      ∃ co ∈ so.sub_categories,
        co.sub_category_name = sc.sub_category_name := by
  have hms : rs.foldl accumResult []
      = mfold Prod.fst mergeSecPair [] (rs.map resultDeltas).flatten :=
    foldl_accumResult_eq rs []
  have hdin : secDelta sec ∈ (rs.map resultDeltas).flatten := by
    rw [List.mem_flatten]
    exact ⟨resultDeltas (some r), List.mem_map_of_mem resultDeltas hr,
      List.mem_map_of_mem secDelta hsec⟩
  have hoccs : secDelta sec ∈
      ((rs.map resultDeltas).flatten.filter
        (fun b => Prod.fst b = sec.sector_name)) :=
    List.mem_filter.2 ⟨hdin, by simp [secDelta]⟩
  obtain ⟨a, as, hocc_eq⟩ : ∃ a as,
      ((rs.map resultDeltas).flatten.filter
        (fun b => Prod.fst b = sec.sector_name)) = a :: as := by
    cases hocc : ((rs.map resultDeltas).flatten.filter
        (fun b => Prod.fst b = sec.sector_name)) with
    | nil =>
        rw [hocc] at hoccs
        simp at hoccs
    | cons a as => exact ⟨a, as, rfl⟩
  have hfind2 : findK Prod.fst
      (mfold Prod.fst mergeSecPair [] (rs.map resultDeltas).flatten)
      sec.sector_name = some (as.foldl mergeSecPair a) := by
    rw [findK_mfold Prod.fst mergeSecPair mergeSecPair_fst hsname [], hocc_eq]
    rfl
  obtain ⟨hmem, hkeyeq⟩ := findK_mem Prod.fst hfind2
  have hcin_delta : sc.sub_category_name ∈ ((secDelta sec).2.map Prod.fst) := by
    show sc.sub_category_name ∈
      (mfold Prod.fst mergeLeafPair [] (sec.sub_categories.map scDelta)).map Prod.fst
    rw [mem_map_key_mfold Prod.fst mergeLeafPair mergeLeafPair_fst]
    exact Or.inr ⟨hcname, scDelta sc, List.mem_map_of_mem scDelta hsc, rfl⟩
  have hcin : sc.sub_category_name ∈
      ((as.foldl mergeSecPair a).2.map Prod.fst) := by
    rcases List.mem_cons.1 (hocc_eq ▸ hoccs) with heq | htail
    · exact foldl_mergeSecPair_keys_left as a (heq ▸ hcin_delta)
    · exact foldl_mergeSecPair_keys_right htail hcin_delta a
  refine ⟨finalizeSector (as.foldl mergeSecPair a), ?_, ?_, ?_⟩
  · show finalizeSector (as.foldl mergeSecPair a)
      ∈ (rs.foldl accumResult []).map finalizeSector
    rw [hms]
    exact List.mem_map_of_mem finalizeSector hmem
  · exact hkeyeq
  · obtain ⟨q, hq, hqname⟩ := List.mem_map.1 hcin
    exact ⟨finalizeSubCat q, List.mem_map_of_mem finalizeSubCat hq, hqname⟩

/-- A chunk result whose only sub-category `"C"` (in sector `"S"`) carries
zero action points and one additional detail. -/
def c8ChunkResult : List SectorIn :=
  [SectorIn.mk "S"
    [SubCatIn.mk "C" (some (Information.mk [] [("k", Val.s "v")])) []]]

/-- C8 counterexample: the claim says a sub-category with zero accumulated
action points is omitted from the merged output; for the single chunk result
with sector `"S"` and sub-category `"C"` holding no action points (only one
additional detail), the merger emits `"C"` anyway, with an empty
`action_points` array. -/
theorem C8_counterexample :
    mergeExtractionResults [some c8ChunkResult] "D" "2024-01-01"
      = MergedData.mk "D" "2024-01-01"
          [SectorOut.mk "S"
            [SubCatOut.mk "C" (Information.mk [] [("k", Val.s "v")])]] := by
  decide

/-- Witness for the amended C8 theorem at the counterexample's input. -/
theorem C8_empty_subcategory_emitted_witness :
    ∃ so ∈ (mergeExtractionResults [some c8ChunkResult] "D" "2024-01-01").sectors,
      so.sector_name = "S" ∧
      ∃ co ∈ so.sub_categories, co.sub_category_name = "C" :=
  C8_empty_subcategory_emitted [some c8ChunkResult] "D" "2024-01-01"
    c8ChunkResult (by simp)
    (SectorIn.mk "S"
      [SubCatIn.mk "C" (some (Information.mk [] [("k", Val.s "v")])) []])
    (by simp [c8ChunkResult]) (by decide)
    (SubCatIn.mk "C" (some (Information.mk [] [("k", Val.s "v")])) [])
    (by simp) (by decide)

/-- Last truthy value of a list, if any. -/
def lastTruthy : List Val → Option Val
  | [] => none
  | v :: vs =>
      match lastTruthy vs with
      | some t => some t
      | none => if v.truthy then some v else none

theorem foldl_mergeField_eq (vs : List Val) :
    ∀ v : Val, vs.foldl mergeField v = (lastTruthy vs).getD v := by
  induction vs with
  | nil => intro v; rfl
  | cons w ws ih =>
      intro v
      rw [List.foldl_cons, ih (mergeField v w)]
      show (lastTruthy ws).getD (mergeField v w)
        = (match lastTruthy ws with
            | some t => some t
            | none => if w.truthy then some w else none).getD v
      cases lastTruthy ws with
      | some t => rfl
      | none =>
          rw [mergeField_eq]
          by_cases hw : w.truthy = true <;> simp [hw]

theorem foldl_mergeInto_name (as : List ActionPoint) :
    ∀ a : ActionPoint, (as.foldl ActionPoint.mergeInto a).action_name
      = a.action_name := by
  induction as with
  | nil => intro a; rfl
  | cons b as' ih => intro a; rw [List.foldl_cons, ih]; rfl

theorem foldl_mergeInto_eq (as : List ActionPoint) :
    ∀ a : ActionPoint, as.foldl ActionPoint.mergeInto a
      = ActionPoint.mk a.action_name
          ((lastTruthy (as.map (fun x => x.current_status))).getD a.current_status)
          ((lastTruthy (as.map (fun x => x.achievement_percentage))).getD
            a.achievement_percentage)
          ((lastTruthy (as.map (fun x => x.data_source))).getD a.data_source)
          ((lastTruthy (as.map (fun x => x.remarks))).getD a.remarks) := by
  have hfield : ∀ (as : List ActionPoint) (a : ActionPoint),
      as.foldl ActionPoint.mergeInto a
        = ActionPoint.mk a.action_name
            ((as.map (fun x => x.current_status)).foldl mergeField a.current_status)
            ((as.map (fun x => x.achievement_percentage)).foldl mergeField
              a.achievement_percentage)
            ((as.map (fun x => x.data_source)).foldl mergeField a.data_source)
            ((as.map (fun x => x.remarks)).foldl mergeField a.remarks) := by
    intro as
    induction as with
    | nil => intro a; rfl
    | cons b as' ih =>
        intro a
        rw [List.foldl_cons, ih]
        rfl
  intro a
  rw [hfield as a, foldl_mergeField_eq, foldl_mergeField_eq,
    foldl_mergeField_eq, foldl_mergeField_eq]

/-- C5 (amended): the dedup keeps exactly one entry per nonempty action name;
the kept entry is the first occurrence of that name with each of the four
fields replaced by the last later value that is truthy, when one exists.  The
claim's "non-null" must read "truthy": a later falsy value — null, but also
the non-null `0` or `""` — never fills a field and never overwrites it. -/
theorem C5_dedup_field_merge (aps : List ActionPoint) (k : String)
    (hk : k ≠ "") :
    (match aps.filter (fun ap => ap.action_name = k) with
     | [] => findK ActionPoint.action_name (dedupActionPoints aps) k = none
     | a :: as =>
        findK ActionPoint.action_name (dedupActionPoints aps) k
          = some (ActionPoint.mk a.action_name
              ((lastTruthy (as.map (fun x => x.current_status))).getD
                a.current_status)
              ((lastTruthy (as.map (fun x => x.achievement_percentage))).getD
                a.achievement_percentage)
              ((lastTruthy (as.map (fun x => x.data_source))).getD
                a.data_source)
              ((lastTruthy (as.map (fun x => x.remarks))).getD a.remarks)))
    ∧ ((dedupActionPoints aps).map ActionPoint.action_name).Nodup := by
  refine ⟨?_, dedup_names_nodup aps⟩
  rw [dedupActionPoints_eq]
  have h := findK_mfold ActionPoint.action_name ActionPoint.mergeInto
    mergeInto_keyfact hk (L := aps) []
  cases hocc : aps.filter (fun ap => ap.action_name = k) with
  | nil =>
      rw [hocc] at h
      exact h
  | cons a as =>
      rw [hocc] at h
      have h2 : findK ActionPoint.action_name
          (mfold ActionPoint.action_name ActionPoint.mergeInto [] aps) k
          = some (as.foldl ActionPoint.mergeInto a) := h
      rw [h2, foldl_mergeInto_eq]

/-- The two occurrences of action `"X"` used to witness and refute C5:
the first has achievement 50 and null status, the later one has the falsy but
non-null achievement `0`, the falsy but non-null status `""`, and a truthy
remark. -/
def c5ap1 : ActionPoint := ActionPoint.mk "X" Val.null (Val.n 50) Val.null Val.null

def c5ap2 : ActionPoint :=
  ActionPoint.mk "X" (Val.s "") (Val.n 0) Val.null (Val.s "note")

/-- C5 counterexample: with the kept entry `c5ap1` (achievement 50, null
status) and the later occurrence `c5ap2` (non-null achievement 0, non-null
status ""), the claim predicts status `""` (a non-null later value filling a
null field) and achievement `0` (a later non-null value winning); the code
keeps the null status and achievement 50, and only the truthy remark is
taken. -/
theorem C5_counterexample :
    dedupActionPoints [c5ap1, c5ap2]
      = [ActionPoint.mk "X" Val.null (Val.n 50) Val.null (Val.s "note")] ∧
    Val.null ≠ Val.s "" ∧ Val.n 50 ≠ Val.n 0 := by
  decide

/-- Witness for the amended C5 theorem on the concrete occurrence pair. -/
theorem C5_dedup_field_merge_witness :
    findK ActionPoint.action_name (dedupActionPoints [c5ap1, c5ap2]) "X"
      = some (ActionPoint.mk "X" Val.null (Val.n 50) Val.null (Val.s "note")) := by
  have h := (C5_dedup_field_merge [c5ap1, c5ap2] "X" (by decide)).1
  exact h

theorem owAP_keyfact (a b : ActionPoint)
    (h : a.action_name = b.action_name) :
    (owAP a b).action_name = a.action_name := h.symm

theorem filter_name_eq_nil {l : List ActionPoint} {k : String}
    (h : k ∉ l.map ActionPoint.action_name) :
    l.filter (fun x => x.action_name = k) = [] := by
  rw [List.filter_eq_nil]
  intro x hx
  simp only [decide_eq_true_eq]
  intro hxk
  exact h (hxk ▸ List.mem_map_of_mem ActionPoint.action_name hx)

theorem filter_name_singleton {l : List ActionPoint}
    (hnd : (l.map ActionPoint.action_name).Nodup) {ap : ActionPoint}
    (hap : ap ∈ l) :
    l.filter (fun x => x.action_name = ap.action_name) = [ap] := by
  induction l with
  | nil => simp at hap
  | cons x xs ih =>
      simp only [List.map_cons, List.nodup_cons] at hnd
      rcases List.mem_cons.1 hap with rfl | hmem
      · rw [List.filter_cons_of_pos (by simp)]
        rw [filter_name_eq_nil hnd.1]
      · have hx : ¬ x.action_name = ap.action_name := by
          intro hh
          exact hnd.1 (hh ▸ List.mem_map_of_mem ActionPoint.action_name hmem)
        rw [List.filter_cons_of_neg (by simpa using hx)]
        exact ih hnd.2 hmem

/-- C6: the knowledge merge of `extract_and_store` is the union of prior and
new action points keyed by name.  Where a name exists in both, the new
record's entry replaces the prior one unconditionally (whole-entry overwrite,
no null-awareness); a prior action point whose name does not appear in the
new record is carried over unchanged; the merged names are exactly the union
of both name sets, each occurring once. -/
theorem C6_knowledge_merge (prior nw : List ActionPoint)
    (hp1 : ∀ ap ∈ prior, ap.action_name ≠ "")
    (hp2 : (prior.map ActionPoint.action_name).Nodup)
    (hn1 : ∀ ap ∈ nw, ap.action_name ≠ "")
    (hn2 : (nw.map ActionPoint.action_name).Nodup) :
    (∀ ap ∈ nw,
      findK ActionPoint.action_name (mergeActionPoints prior nw) ap.action_name
        = some ap) ∧
    (∀ ap ∈ prior, ap.action_name ∉ nw.map ActionPoint.action_name →
      findK ActionPoint.action_name (mergeActionPoints prior nw) ap.action_name
        = some ap) ∧
    (∀ k, k ∈ (mergeActionPoints prior nw).map ActionPoint.action_name ↔
      k ∈ prior.map ActionPoint.action_name ∨ k ∈ nw.map ActionPoint.action_name) ∧
    ((mergeActionPoints prior nw).map ActionPoint.action_name).Nodup := by
  rw [mergeActionPoints_eq]
  have hEfind : ∀ ap ∈ prior,
      findK ActionPoint.action_name
        (mfold ActionPoint.action_name owAP [] prior) ap.action_name
        = some ap := by
    intro ap hap
    have h := findK_mfold ActionPoint.action_name owAP owAP_keyfact
      (hp1 ap hap) (L := prior) []
    rw [filter_name_singleton hp2 hap] at h
    exact h
  refine ⟨?_, ?_, ?_, ?_⟩
  · intro ap hap
    have h := findK_mfold ActionPoint.action_name owAP owAP_keyfact
      (hn1 ap hap) (L := nw)
      (mfold ActionPoint.action_name owAP [] prior)
    rw [filter_name_singleton hn2 hap] at h
    rw [h]
    cases findK ActionPoint.action_name
        (mfold ActionPoint.action_name owAP [] prior) ap.action_name with
    | none => rfl
    | some e => rfl
  · intro ap hap hnot
    have h := findK_mfold ActionPoint.action_name owAP owAP_keyfact
      (hp1 ap hap) (L := nw)
      (mfold ActionPoint.action_name owAP [] prior)
    rw [filter_name_eq_nil hnot, hEfind ap hap] at h
    exact h
  · intro k
    by_cases hk : k = ""
    · subst hk
      constructor
      · intro hmem
        obtain ⟨e, he, hke⟩ := List.mem_map.1 hmem
        have : e.action_name ≠ "" :=
          key_ne_empty_mfold ActionPoint.action_name owAP owAP_keyfact
            (mfold ActionPoint.action_name owAP [] prior)
            (key_ne_empty_mfold ActionPoint.action_name owAP owAP_keyfact []
              (by simp)) e he
        exact absurd hke this
      · rintro (hmem | hmem)
        · obtain ⟨e, he, hke⟩ := List.mem_map.1 hmem
          exact absurd hke (hp1 e he)
        · obtain ⟨e, he, hke⟩ := List.mem_map.1 hmem
          exact absurd hke (hn1 e he)
    · rw [mem_map_key_mfold ActionPoint.action_name owAP owAP_keyfact,
        mem_map_key_mfold ActionPoint.action_name owAP owAP_keyfact]
      simp only [List.map_nil, List.not_mem_nil, false_or]
      constructor
      · rintro ((⟨_, b, hb, hkb⟩ | ⟨_, b, hb, hkb⟩))
        · exact Or.inl (hkb ▸ List.mem_map_of_mem ActionPoint.action_name hb)
        · exact Or.inr (hkb ▸ List.mem_map_of_mem ActionPoint.action_name hb)
      · rintro (hmem | hmem)
        · obtain ⟨e, he, hke⟩ := List.mem_map.1 hmem
          exact Or.inl ⟨hk, e, he, hke⟩
        · obtain ⟨e, he, hke⟩ := List.mem_map.1 hmem
          exact Or.inr ⟨hk, e, he, hke⟩
  · exact nodup_map_key_mfold ActionPoint.action_name owAP owAP_keyfact
      (nodup_map_key_mfold ActionPoint.action_name owAP owAP_keyfact (by simp))

/-- Prior fact `A: done` and new fact `B: pending`, the spec's
cross-document accumulation example. -/
def c6apA : ActionPoint := ActionPoint.mk "A" (Val.s "done") Val.null Val.null Val.null

def c6apB : ActionPoint :=
  ActionPoint.mk "B" (Val.s "pending") Val.null Val.null Val.null

/-- Witness for C6: merging prior `{A: done}` with new `{B: pending}` keeps
`A` unchanged and adds `B`. -/
theorem C6_knowledge_merge_witness :
    findK ActionPoint.action_name (mergeActionPoints [c6apA] [c6apB]) "A"
        = some c6apA ∧
      findK ActionPoint.action_name (mergeActionPoints [c6apA] [c6apB]) "B"
        = some c6apB := by
  have h := C6_knowledge_merge [c6apA] [c6apB]
    (by decide) (by decide) (by decide) (by decide)
  exact ⟨h.2.1 c6apA (by simp) (by decide), h.1 c6apB (by simp)⟩

/-- C10: both mergers silently drop an action point whose `action_name` is
missing or empty.  No such entry ever appears in a merged output (first and
third conjuncts), dropping them from the input changes nothing (second and
third conjuncts), and both merges are total functions, so no error or
failure is produced. -/
theorem C10_empty_names_dropped :
    (∀ (rs : List (Option (List SectorIn))) (d u : String),
      ∀ so ∈ (mergeExtractionResults rs d u).sectors,
        ∀ co ∈ so.sub_categories,
          ∀ ap ∈ co.information.action_points, ap.action_name ≠ "") ∧
    (∀ aps : List ActionPoint,
      dedupActionPoints (aps.filter (fun ap => ap.action_name ≠ ""))
        = dedupActionPoints aps) ∧
    (∀ existing nw : List ActionPoint,
      (∀ ap ∈ mergeActionPoints existing nw, ap.action_name ≠ "") ∧
      mergeActionPoints (existing.filter (fun ap => ap.action_name ≠ "")) nw
        = mergeActionPoints existing nw ∧
      mergeActionPoints existing (nw.filter (fun ap => ap.action_name ≠ ""))
        = mergeActionPoints existing nw) := by
  refine ⟨?_, ?_, ?_⟩
  · intro rs d u so hso co hco ap hap
    unfold mergeExtractionResults at hso
    simp only [List.mem_map] at hso
    obtain ⟨p, _hp, rfl⟩ := hso
    unfold finalizeSector at hco
    simp only [List.mem_map] at hco
    obtain ⟨q, _hq, rfl⟩ := hco
    have hap' : ap ∈ dedupActionPoints q.2.1 := hap
    rw [dedupActionPoints_eq] at hap'
    exact key_ne_empty_mfold ActionPoint.action_name ActionPoint.mergeInto
      mergeInto_keyfact [] (by simp) ap hap'
  · intro aps
    rw [dedupActionPoints_eq, dedupActionPoints_eq]
    exact mfold_filter_ne_empty ActionPoint.action_name ActionPoint.mergeInto []
  · intro existing nw
    refine ⟨?_, ?_, ?_⟩
    · intro ap hap
      rw [mergeActionPoints_eq] at hap
      exact key_ne_empty_mfold ActionPoint.action_name owAP owAP_keyfact _
        (key_ne_empty_mfold ActionPoint.action_name owAP owAP_keyfact []
          (by simp)) ap hap
    · rw [mergeActionPoints_eq, mergeActionPoints_eq,
        mfold_filter_ne_empty ActionPoint.action_name owAP []]
    · rw [mergeActionPoints_eq, mergeActionPoints_eq,
        mfold_filter_ne_empty ActionPoint.action_name owAP]

/-- Witness for C10: a nameless entry is dropped by the dedup and by the
knowledge merge of a concrete pair of lists. -/
theorem C10_empty_names_dropped_witness :
    dedupActionPoints
        ([ActionPoint.mk "" (Val.s "x") Val.null Val.null Val.null,
          c6apA].filter (fun ap => ap.action_name ≠ ""))
      = dedupActionPoints
          [ActionPoint.mk "" (Val.s "x") Val.null Val.null Val.null, c6apA] ∧
    mergeActionPoints
        ([ActionPoint.mk "" (Val.s "x") Val.null Val.null Val.null].filter
          (fun ap => ap.action_name ≠ "")) [c6apB]
      = mergeActionPoints
          [ActionPoint.mk "" (Val.s "x") Val.null Val.null Val.null] [c6apB] :=
  ⟨C10_empty_names_dropped.2.1 _,
    (C10_empty_names_dropped.2.2 _ [c6apB]).2.1⟩

/-- Whether a `create_extraction` call for the given key appears in `ops`. -/
def keyWritten (ops : List ExtArgs) (did : Nat) (sec sub : String) : Bool :=
  ops.any (fun a => a.district_id = did ∧ a.sector_name = sec ∧
    a.sub_category = sub)

theorem filter_markOutdated_latest (rows : List ExtRow) (did : Nat)
    (sec sub : String) :
    (markExtractionsOutdated rows did sec sub).filter
      (fun r => r.district_id = did ∧ r.sector_name = sec ∧
        r.sub_category = sub ∧ r.is_latest = true) = [] := by
  induction rows with
  | nil => rfl
  | cons r rows' ih =>
      unfold markExtractionsOutdated
      simp only [List.map_cons]
      unfold markExtractionsOutdated at ih
      by_cases h : r.district_id = did ∧ r.sector_name = sec ∧
          r.sub_category = sub
      · rw [if_pos h, List.filter_cons_of_neg (by simp)]
        exact ih
      · rw [if_neg h, List.filter_cons_of_neg (by
          simp only [decide_eq_true_eq]
          intro hcon
          exact h ⟨hcon.1, hcon.2.1, hcon.2.2.1⟩)]
        exact ih

theorem filter_markOutdated_other_key {arg_did : Nat} {arg_sec arg_sub : String}
    {did : Nat} {sec sub : String}
    (hne : ¬ (arg_did = did ∧ arg_sec = sec ∧ arg_sub = sub))
    (rows : List ExtRow) (q : Bool) :
    (markExtractionsOutdated rows arg_did arg_sec arg_sub).filter
      (fun r => r.district_id = did ∧ r.sector_name = sec ∧
        r.sub_category = sub ∧ r.is_latest = q)
      = rows.filter (fun r => r.district_id = did ∧ r.sector_name = sec ∧
          r.sub_category = sub ∧ r.is_latest = q) := by
  induction rows with
  | nil => rfl
  | cons r rows' ih =>
      unfold markExtractionsOutdated
      simp only [List.map_cons]
      unfold markExtractionsOutdated at ih
      by_cases h : r.district_id = arg_did ∧ r.sector_name = arg_sec ∧
          r.sub_category = arg_sub
      · have hout : ¬ (r.district_id = did ∧ r.sector_name = sec ∧
            r.sub_category = sub) := by
          rintro ⟨h1, h2, h3⟩
          exact hne ⟨h.1 ▸ h1, h.2.1 ▸ h2, h.2.2 ▸ h3⟩
        rw [if_pos h,
          List.filter_cons_of_neg (by
            simp only [decide_eq_true_eq]
            intro hcon
            exact hout ⟨hcon.1, hcon.2.1, hcon.2.2.1⟩),
          List.filter_cons_of_neg (by
            simp only [decide_eq_true_eq]
            intro hcon
            exact hout ⟨hcon.1, hcon.2.1, hcon.2.2.1⟩)]
        exact ih
      · rw [if_neg h]
        by_cases hq : r.district_id = did ∧ r.sector_name = sec ∧
            r.sub_category = sub ∧ r.is_latest = q
        · rw [List.filter_cons_of_pos (by simpa using hq),
            List.filter_cons_of_pos (by simpa using hq), ih]
        · rw [List.filter_cons_of_neg (by simpa using hq),
            List.filter_cons_of_neg (by simpa using hq)]
          exact ih

/-- C3: after any sequence of `create_extraction` calls on the initially
empty extractions table, every (district, sector, sub-category) key that was
ever written has exactly one row with `is_latest = 1` (every other row of the
key therefore has `is_latest = 0`), and a key never written has no rows at
all. -/
theorem C3_latest_pointer (ops : List ExtArgs) (did : Nat) (sec sub : String) :
    if keyWritten ops did sec sub then
      ((runExtractions ops).filter
        (fun r => r.district_id = did ∧ r.sector_name = sec ∧
          r.sub_category = sub ∧ r.is_latest = true)).length = 1
    else
      (runExtractions ops).filter
        (fun r => r.district_id = did ∧ r.sector_name = sec ∧
          r.sub_category = sub) = [] := by
  induction ops using List.reverseRecOn with
  | nil => simp [keyWritten, runExtractions]
  | append_singleton ops a ih =>
      have hrun : runExtractions (ops ++ [a])
          = createExtraction (runExtractions ops) a := by
        unfold runExtractions
        rw [List.foldl_append]
        rfl
      by_cases ha : a.district_id = did ∧ a.sector_name = sec ∧
          a.sub_category = sub
      · have hw : keyWritten (ops ++ [a]) did sec sub = true := by
          unfold keyWritten
          rw [List.any_append]
          simp [ha]
        rw [if_pos hw, hrun]
        unfold createExtraction
        obtain ⟨ha1, ha2, ha3⟩ := ha
        rw [ha1, ha2, ha3, List.filter_append, filter_markOutdated_latest,
          List.filter_cons_of_pos (by simp)]
        rfl
      · have hw : keyWritten (ops ++ [a]) did sec sub
            = keyWritten ops did sec sub := by
          unfold keyWritten
          rw [List.any_append]
          simp [ha]
        rw [hw, hrun]
        unfold createExtraction
        by_cases hwr : keyWritten ops did sec sub = true
        · rw [if_pos hwr] at ih ⊢
          rw [List.filter_append,
            filter_markOutdated_other_key ha,
            List.filter_cons_of_neg (by
              simp only [decide_eq_true_eq]
              intro hcon
              exact ha ⟨hcon.1, hcon.2.1, hcon.2.2.1⟩)]
          simpa using ih
        · simp only [Bool.not_eq_true] at hwr
          rw [hwr] at ih ⊢
          simp only [if_neg (by simp : ¬ (false = true))] at ih ⊢
          rw [List.filter_append,
            List.filter_cons_of_neg (by
              simp only [decide_eq_true_eq]
              intro hcon
              exact ha ⟨hcon.1, hcon.2.1, hcon.2.2⟩)]
          have hmark : (markExtractionsOutdated (runExtractions ops)
              a.district_id a.sector_name a.sub_category).filter
              (fun r => r.district_id = did ∧ r.sector_name = sec ∧
                r.sub_category = sub) = [] := by
            have h1 := filter_markOutdated_other_key ha (runExtractions ops) true
            have h2 := filter_markOutdated_other_key ha (runExtractions ops) false
            rw [show ((runExtractions ops).filter
                (fun r => r.district_id = did ∧ r.sector_name = sec ∧
                  r.sub_category = sub ∧ r.is_latest = true)) = [] from ?_] at h1
            rw [show ((runExtractions ops).filter
                (fun r => r.district_id = did ∧ r.sector_name = sec ∧
                  r.sub_category = sub ∧ r.is_latest = false)) = [] from ?_] at h2
            · -- combine: every row fails the key predicate
              rw [List.filter_eq_nil] at h1 h2 ⊢
              intro r hr
              simp only [decide_eq_true_eq] at h1 h2 ⊢
              rintro ⟨g1, g2, g3⟩
              cases hl : r.is_latest with
              | true => exact h1 r hr ⟨g1, g2, g3, hl⟩
              | false => exact h2 r hr ⟨g1, g2, g3, hl⟩
            · rw [List.filter_eq_nil] at ih ⊢
              intro r hr
              simp only [decide_eq_true_eq] at ih ⊢
              rintro ⟨g1, g2, g3, _⟩
              exact ih r hr ⟨g1, g2, g3⟩
            · rw [List.filter_eq_nil] at ih ⊢
              intro r hr
              simp only [decide_eq_true_eq] at ih ⊢
              rintro ⟨g1, g2, g3, _⟩
              exact ih r hr ⟨g1, g2, g3⟩
          rw [hmark]
          simp

theorem filterMap_id_length_add (outcomes : List (Option (Option (List SectorIn)))) :
    (outcomes.filterMap id).length
      + (outcomes.filter (fun o => o.isNone)).length = outcomes.length := by
  induction outcomes with
  | nil => rfl
  | cons o os ih =>
      cases o with
      | none =>
          show (os.filterMap id).length
              + (none :: os.filter (fun o => o.isNone)).length = os.length + 1
          rw [List.length_cons]
          omega
      | some v =>
          show (v :: os.filterMap id).length
              + (os.filter (fun o => o.isNone)).length = os.length + 1
          rw [List.length_cons]
          omega

/-- C7: for a document processed as more than one chunk,
`extract_structured_data` reports total failure (returns the absent result)
exactly when strictly more than half of the chunks failed — the code compares
`len(failed_chunks) > len(chunks) / 2` with Python's exact division —
and otherwise returns the merged result built from the successful chunks in
order. -/
theorem C7_majority_failure (outcomes : List (Option (Option (List SectorIn))))
    (d u : String) (hn : 1 < outcomes.length) :
    (extractBatch outcomes d u = none ↔
      (((outcomes.filter (fun o => o.isNone)).length : ℚ)
        > (outcomes.length : ℚ) / 2)) ∧
    (¬ (((outcomes.filter (fun o => o.isNone)).length : ℚ)
        > (outcomes.length : ℚ) / 2) →
      extractBatch outcomes d u
        = some (mergeExtractionResults (outcomes.filterMap id) d u)) := by
  by_cases hg : (((outcomes.filter (fun o => o.isNone)).length : ℚ)
      > (outcomes.length : ℚ) / 2)
  · constructor
    · constructor
      · intro _; exact hg
      · intro _
        simp only [extractBatch, if_pos hg]
    · intro hcon
      exact absurd hg hcon
  · have hne : outcomes.filterMap id ≠ [] := by
      intro hempty
      have hsum := filterMap_id_length_add outcomes
      rw [hempty] at hsum
      simp only [List.length_nil, Nat.zero_add] at hsum
      apply hg
      rw [hsum]
      have h2 : (2 : ℚ) ≤ (outcomes.length : ℚ) := by exact_mod_cast hn
      linarith
    have hres : extractBatch outcomes d u
        = some (mergeExtractionResults (outcomes.filterMap id) d u) := by
      simp only [extractBatch, if_neg hg, if_neg hne]
    constructor
    · rw [hres]
      simp only [reduceCtorEq, false_iff]
      exact hg
    · intro _
      exact hres

/-- Five chunk outcomes of which two failed: three contribute data. -/
def c7Outcomes : List (Option (Option (List SectorIn))) :=
  [some (some c8ChunkResult), none, some none, none, some none]

/-- Five chunk outcomes of which three failed. -/
def c7OutcomesFail : List (Option (Option (List SectorIn))) :=
  [none, none, none, some (some c8ChunkResult), some none]

/-- Witness for C7: with five chunks the extraction fails when three chunks
fail and succeeds on the three surviving chunks when two fail. -/
theorem C7_majority_failure_witness :
    extractBatch c7OutcomesFail "D" "2024-01-01" = none ∧
    extractBatch c7Outcomes "D" "2024-01-01"
      = some (mergeExtractionResults (c7Outcomes.filterMap id) "D" "2024-01-01") :=
  ⟨(C7_majority_failure c7OutcomesFail "D" "2024-01-01" (by decide)).1.mpr
      (by norm_num [c7OutcomesFail, List.filter]),
    (C7_majority_failure c7Outcomes "D" "2024-01-01" (by decide)).2
      (by norm_num [c7Outcomes, List.filter])⟩

theorem jsonToVal_valToJson (v : Val) : jsonToVal (valToJson v) = v := by
  cases v <;> rfl

theorem jsonToAp_apToJson (ap : ActionPoint) : jsonToAp (apToJson ap) = ap := by
  obtain ⟨n, cs, apc, ds, rm⟩ := ap
  simp [jsonToAp, apToJson, jsonGet, lookupEntry, jsonToVal_valToJson]

/-- C2 (amended): the record body `extract_and_store` writes is a JSON object
whose only key is `"action_points"` — no `additional_details` member is
persisted; parsing the persisted body back recovers the action points
exactly while the record's additional details come back empty. -/
theorem C2_stored_body_round_trip (rec : SubCategoryRecord) :
    jsonObjKeys (storedBodyJson rec.action_points) = ["action_points"] ∧
    parseStoredBody (storedBodyJson rec.action_points)
      = SubCategoryRecord.mk rec.action_points [] := by
  constructor
  · rfl
  · show SubCategoryRecord.mk ((rec.action_points.map apToJson).map jsonToAp) []
      = SubCategoryRecord.mk rec.action_points []
    rw [List.map_map]
    have he : jsonToAp ∘ apToJson = id := by
      funext ap
      exact jsonToAp_apToJson ap
    rw [he, List.map_id]

/-- A SubCategoryRecord holding one action point and one additional detail. -/
def c2rec : SubCategoryRecord := SubCategoryRecord.mk [c6apA] [("k", Val.s "v")]

/-- C2 counterexample: the body actually written for `c2rec`'s data (the
knowledge merge of an empty prior state with its action points, serialized
as in `extract_and_store`) contains no `"additional_details"` key at all,
and the round trip returns the record with empty additional details — not
the original record. -/
theorem C2_counterexample :
    jsonObjKeys (storedBodyJson (mergeActionPoints [] c2rec.action_points))
        = ["action_points"] ∧
      "additional_details"
        ∉ jsonObjKeys (storedBodyJson (mergeActionPoints [] c2rec.action_points)) ∧
      parseStoredBody (storedBodyJson (mergeActionPoints [] c2rec.action_points))
        = SubCategoryRecord.mk [c6apA] [] ∧
      SubCategoryRecord.mk [c6apA] [] ≠ c2rec := by
  refine ⟨rfl, by decide, ?_, by decide⟩
  rfl

/-- Witness for C9 on a concrete chunk result. -/
theorem C9_merge_self_idempotent_witness :
    mergeExtractionResults [some c8ChunkResult, some c8ChunkResult]
        "D" "2024-01-01"
      = mergeExtractionResults [some c8ChunkResult] "D" "2024-01-01" :=
  (C9_merge_self_idempotent (some c8ChunkResult) "D" "2024-01-01").1
